import Mathlib

/-!
Verification of the tree-view abstraction of this repository: the tree node
iterators (`tree-iterator.ts`), the tree selection service
(`tree-selection.ts`), the mock tree model (`test/mock-tree-model.ts`) and the
view-state persistence of the tree widget (`deflateForStorage` /
`inflateFromStorage`).

Tree nodes are plain objects with optional properties (`children`, `expanded`,
`selected`); optional property presence is modelled with `Option`.  For the
iterator development a tree is an inductive rose tree and a node of the tree is
addressed by its path (the list of child indices from the root); the `parent`
back-reference of a node at path `p ++ [i]` is the node at `p`, which is the
reading of the parent pointers the spec prescribes ("children's parent pointer
equals the composite node").  Recursions that walk the tree carry an explicit
fuel argument so that every definition is structural and evaluates inside the
kernel; `depthLe` states that a given fuel bounds the height of the tree.
-/

/-- A tree node: `id`, `name`, optional `children`, optional `expanded` and
`selected` flags.  `children = none` models a node without a `children`
property (a non-composite node), `some cs` a composite node with children
`cs`. -/
inductive MTree where
  | mk (id name : String) (children : Option (List MTree)) (expanded selected : Option Bool)

/-- The optional `children` property of a node. -/
def MTree.childrenOpt : MTree → Option (List MTree)
  | .mk _ _ cs _ _ => cs

/-- The optional `expanded` property of a node. -/
def MTree.expandedOpt : MTree → Option Bool
  | .mk _ _ _ e _ => e

/-- The optional `selected` property of a node. -/
def MTree.selectedOpt : MTree → Option Bool
  | .mk _ _ _ _ s => s

/-- The `id` of a node. -/
def MTree.nodeId : MTree → String
  | .mk i _ _ _ _ => i

/-- Modelled from the spec: `CompositeTreeNode.is` of the missing `tree.ts`
declares a node composite when it has a `children` property (the spec's data
model: "optional `children`"). -/
def isComposite (t : MTree) : Bool := t.childrenOpt.isSome

/-- The children array of a node; a non-composite node has none. -/
def childrenList (t : MTree) : List MTree := t.childrenOpt.getD []

/-- Modelled from the spec: `ExpandableTreeNode.isExpanded` of the missing
`tree-expansion.ts`: an expandable node (composite with an `expanded` property)
whose `expanded` flag is `true`. -/
def isExpandedNode (t : MTree) : Bool := isComposite t && t.expandedOpt.getD false

/-- `AbstractTreeNodeIterator.hasChildren` (tree-iterator.ts, lines 44-55):
`false` for non-composite nodes and empty children arrays; with
`pruneCollapsed` additionally requires the node to be expanded. -/
def hasChildrenB (prune : Bool) (t : MTree) : Bool :=
  isComposite t && !(childrenList t).isEmpty && (!prune || isExpandedNode t)

/-- The node of `t` at path `p` (child indices from the root). -/
def nodeAt : List Nat → MTree → Option MTree
  | [], t => some t
  | i :: p, t => ((childrenList t).get? i).bind (nodeAt p)

/-- Modelled from the spec: `TreeNode.getNextSibling` of the missing `tree.ts`.
With the spec's parent back-reference, the next sibling of the node at path
`a ++ [j]` is element `j + 1` of the children of the node at `a`; the root
(empty path, no parent) has none. -/
def getNextSibling (t : MTree) (p : List Nat) : Option (List Nat) :=
  match p.getLast? with
  | none => none
  | some j =>
    match nodeAt p.dropLast t with
    | none => none
    | some par =>
      if j + 1 < (childrenList par).length then some (p.dropLast ++ [j + 1]) else none

/-- Modelled from the spec: `TreeNode.getPrevSibling` of the missing `tree.ts`,
element `j - 1` of the parent's children (none for the first child or the
root). -/
def getPrevSibling (t : MTree) (p : List Nat) : Option (List Nat) :=
  match p.getLast? with
  | none => none
  | some j =>
    match nodeAt p.dropLast t with
    | none => none
    | some _ => if j = 0 then none else some (p.dropLast ++ [j - 1])

/-- Ascent loop of `ForwardTreeNodeIterator.findNextSibling` (tree-iterator.ts,
lines 68-77): take the next sibling if there is one, otherwise recurse on the
parent; at the root the parent is `undefined` and the recursion answers `none`.
The fuel equals the length of the path (one ascent step per path entry), which
makes the recursion structural. -/
def fnsGo (t : MTree) : Nat → List Nat → Option (List Nat)
  | _, [] => none
  | 0, _ :: _ => none
  | fuel + 1, p =>
    match getNextSibling t p with
    | some q => some q
    | none => fnsGo t fuel p.dropLast

/-- `ForwardTreeNodeIterator.findNextSibling` (tree-iterator.ts, lines 68-77).
Note `getNextSibling t [] = none`, so starting the loop with the sibling check
of the root is equivalent to the source. -/
def findNextSibling (t : MTree) (p : List Nat) : Option (List Nat) :=
  fnsGo t p.length p

/-- `ForwardTreeNodeIterator.findFirstChild` (tree-iterator.ts, lines 64-66). -/
def findFirstChild (prune : Bool) (t : MTree) (p : List Nat) : Option (List Nat) :=
  match nodeAt p t with
  | some n => if hasChildrenB prune n then some (p ++ [0]) else none
  | none => none

/-- `ForwardTreeNodeIterator.doNext` (tree-iterator.ts, lines 60-62):
`findFirstChild(node) || findNextSibling(node)`. -/
def fwdDoNext (prune : Bool) (t : MTree) (p : List Nat) : Option (List Nat) :=
  match findFirstChild prune t p with
  | some q => some q
  | none => findNextSibling t p

/-- Descent of `BackwardTreeNodeIterator.findLastChild` (tree-iterator.ts,
lines 89-95), as the relative path of the deepest last child that is reached by
repeatedly stepping to the last child while `hasChildren` holds.  Fuel-bounded
to keep the recursion structural; any fuel at least the height of the tree is
exact (`depthLe`). -/
def lastDescRel (prune : Bool) : Nat → MTree → List Nat
  | 0, _ => []
  | fuel + 1, t =>
    if hasChildrenB prune t then
      match (childrenList t).getLast? with
      | some c => ((childrenList t).length - 1) :: lastDescRel prune fuel c
      | none => []
    else []

/-- `BackwardTreeNodeIterator.findLastChild` applied to an optional node
(tree-iterator.ts, lines 89-95): `undefined` stays `undefined`; a node without
`hasChildren` is returned itself; otherwise the recursion descends through last
children. -/
def findLastChildFrom (fuel : Nat) (prune : Bool) (t : MTree) :
    Option (List Nat) → Option (List Nat)
  | none => none
  | some p =>
    match nodeAt p t with
    | some n => some (p ++ lastDescRel prune fuel n)
    | none => some p

/-- The parent of the node at `p` (`node.parent`); the root has none. -/
def parentOf (p : List Nat) : Option (List Nat) :=
  match p with
  | [] => none
  | _ :: _ => some p.dropLast

/-- `BackwardTreeNodeIterator.doNext` (tree-iterator.ts, lines 83-87):
`findLastChild(getPrevSibling(node)) || node.parent`. -/
def bwdDoNext (fuel : Nat) (prune : Bool) (t : MTree) (p : List Nat) : Option (List Nat) :=
  match findLastChildFrom fuel prune t (getPrevSibling t p) with
  | some q => some q
  | none => parentOf p

/-- Fuel adequacy: `depthLe n t` holds when the height of `t` is less than
`n` (each level consumes one unit of fuel). -/
def depthLe : Nat → MTree → Bool
  | 0, _ => false
  | n + 1, t => (childrenList t).all (fun c => depthLe n c)

/-- Concatenation of per-child path lists, prefixing each path of the `k`-th
list with the child index `i + k`. -/
def joinIndexed : List (List (List Nat)) → Nat → List (List Nat)
  | [], _ => []
  | part :: parts, i => (part.map (fun q => i :: q)) ++ joinIndexed parts (i + 1)

/-- The pre-order (depth-first, children in array order) traversal of `t` as a
list of paths, where the children of every node failing `hasChildren` are
ignored: with `prune = true` this ignores the children of every composite node
that is not expanded, with `prune = false` no subtree is ignored beyond empty
and absent children arrays (which contribute nothing either way). -/
def preorder : Nat → Bool → MTree → List (List Nat)
  | 0, _, _ => [[]]
  | n + 1, prune, t =>
    [] :: (if hasChildrenB prune t then
      joinIndexed ((childrenList t).map (fun c => preorder n prune c)) 0 else [])

/-- The nodes the forward iterator yields from `p` (at most `fuel` of them):
repeatedly apply `fwdDoNext` and collect the results until it answers
`none`. -/
def fwdCollect (prune : Bool) (t : MTree) : Nat → List Nat → List (List Nat)
  | 0, _ => []
  | fuel + 1, p =>
    match fwdDoNext prune t p with
    | none => []
    | some q => q :: fwdCollect prune t fuel q

/-- `IteratorResult` of `AbstractTreeNodeIterator.next`. -/
structure IterResult where
  value : Option (List Nat)
  done : Bool
deriving DecidableEq

/-- `AbstractTreeNodeIterator.next` (tree-iterator.ts, lines 28-40) for an
iterator whose `doNext` is `step`: with no current node the result is
`done`; otherwise the current node becomes `doNext` of it and the result
carries that value with `done: false`. -/
def iterNext (step : List Nat → Option (List Nat)) :
    Option (List Nat) → IterResult × Option (List Nat)
  | none => (⟨none, true⟩, none)
  | some p => (⟨step p, false⟩, step p)

/-- The results of `n` successive `next()` calls starting from iterator state
`s`. -/
def iterRun (step : List Nat → Option (List Nat)) : Nat → Option (List Nat) → List IterResult
  | 0, _ => []
  | n + 1, s =>
    let r := iterNext step s
    r.1 :: iterRun step n r.2

/-!
## Selection service and store model

The selection service (`tree-selection.ts`, `TreeSelectionServiceImpl`)
mutates tree nodes (`node.selected = …`) and keeps a list of selected nodes.
Mutation and object identity are modelled with a store: a list of `RawNode`
records indexed by `Nat` references; `node === node` of JavaScript is equality
of references.
-/

/-- A tree node record in the store model: `id`, `name`, optional parent
reference, optional children references, optional `expanded` / `selected`
flags (`none` models an absent property). -/
structure RawNode where
  id : String
  name : String
  parent : Option Nat
  children : Option (List Nat)
  expanded : Option Bool
  selected : Option Bool
deriving DecidableEq

/-- Reference lookup in the store. -/
def storeGet (s : List RawNode) (r : Nat) : Option RawNode := s.get? r

/-- `SelectableTreeNode.is` (tree-selection.ts, lines 77-79): the argument is
defined and has a `selected` property. -/
def isSelectableRef (s : List RawNode) (r : Nat) : Bool :=
  match storeGet s r with
  | some n => n.selected.isSome
  | none => false

/-- The assignment `node.selected = b`. -/
def setSelected (s : List RawNode) (r : Nat) (b : Bool) : List RawNode :=
  match storeGet s r with
  | some n => s.set r { n with selected := some b }
  | none => s

/-- Whether the `selected` flag of the node behind `r` reads `true`. -/
def selectedFlag (s : List RawNode) (r : Nat) : Bool :=
  match storeGet s r with
  | some n => n.selected.getD false
  | none => false

/-- `StructuredSelection.SelectionType` (common/selection-service.ts, lines
176-191). -/
inductive SelectionType where
  | single
  | multiIndividual
  | multiRange
deriving DecidableEq

/-- `StructuredSelection.SelectionType.isMulti` (common/selection-service.ts,
lines 200-202); `selectNode` without props defaults to a non-multi
selection. -/
def isMulti : Option SelectionType → Bool
  | some .multiIndividual => true
  | some .multiRange => true
  | _ => false

/-- The state of `TreeSelectionServiceImpl`: the node store and
`_selectedNodes`. -/
structure SelState where
  store : List RawNode
  selectedNodes : List Nat
deriving DecidableEq

/-- `forEach(n => n.selected = false)` over a list of references. -/
def clearFlags (s : List RawNode) : List Nat → List RawNode
  | [] => s
  | r :: rs => clearFlags (setSelected s r false) rs

/-- `TreeSelectionServiceImpl.clearSelections` (tree-selection.ts, lines
202-205): reset the flags of all selected nodes and empty the list. -/
def clearSelections (st : SelState) : SelState :=
  ⟨clearFlags st.store st.selectedNodes, []⟩

/-- `TreeSelectionServiceImpl.doSelectNode` (tree-selection.ts, lines 130-170).
The second component is the list of `onSelectionChanged` events fired, each
carrying the selection snapshot at fire time.  `indexOf` over references is
list membership and `splice(indexOf(node), 1)` removes the first
occurrence. -/
def doSelectNode (st : SelState) (node : Nat) (props : Option SelectionType) :
    SelState × List (List Nat) :=
  if st.selectedNodes = [] then
    (⟨setSelected st.store node true, [node]⟩, [[node]])
  else if isMulti props then
    if node ∈ st.selectedNodes then
      if st.selectedNodes.length ≠ 1 then
        let sel := node :: st.selectedNodes.erase node
        (⟨setSelected st.store node true, sel⟩, [sel])
      else (st, [])
    else
      let sel := node :: st.selectedNodes
      (⟨setSelected st.store node true, sel⟩, [sel])
  else if st.selectedNodes.length ≠ 1 ∨ node ∉ st.selectedNodes then
    let st1 := clearSelections st
    (⟨setSelected st1.store node true, [node]⟩, [[node]])
  else (st, [])

/-- `TreeSelectionServiceImpl.selectNode` (tree-selection.ts, lines 123-128).
`validate` is the tree's `validateNode`; modelled from the spec (tree.ts is
not among the sources): an arbitrary resolution function from raw nodes to
tree nodes, `none` meaning the node is invalid. -/
def selectNode (validate : Nat → Option Nat) (st : SelState) (raw : Nat)
    (props : Option SelectionType) : SelState × List (List Nat) :=
  match validate raw with
  | some node => if isSelectableRef st.store node then doSelectNode st node props else (st, [])
  | none => (st, [])

/-- `TreeSelectionServiceImpl.doUnselectNode` (tree-selection.ts, lines
183-196): with `undefined`, clear all flags, empty the list and fire
unconditionally; with a node, remove it and fire only when it was in the
list. -/
def doUnselectNode (st : SelState) : Option Nat → SelState × List (List Nat)
  | none => (⟨clearFlags st.store st.selectedNodes, []⟩, [[]])
  | some node =>
    if node ∈ st.selectedNodes then
      (⟨setSelected st.store node false, st.selectedNodes.erase node⟩,
        [st.selectedNodes.erase node])
    else (st, [])

/-- `TreeSelectionServiceImpl.unselectNode` (tree-selection.ts, lines
172-181). -/
def unselectNode (validate : Nat → Option Nat) (st : SelState) :
    Option Nat → SelState × List (List Nat)
  | none => doUnselectNode st none
  | some raw =>
    match validate raw with
    | some node => if isSelectableRef st.store node then doUnselectNode st (some node) else (st, [])
    | none => (st, [])

/-- An operation on the selection service. -/
inductive SelOp where
  | select (raw : Nat) (props : Option SelectionType)
  | unselect (raw : Option Nat)

/-- Apply one operation, returning the new state and the fired events. -/
def applyOp (validate : Nat → Option Nat) (st : SelState) : SelOp → SelState × List (List Nat)
  | .select raw props => selectNode validate st raw props
  | .unselect raw => unselectNode validate st raw

/-- Apply a sequence of operations. -/
def applyOps (validate : Nat → Option Nat) (st : SelState) : List SelOp → SelState
  | [] => st
  | op :: ops => applyOps validate (applyOp validate st op).1 ops

/-- Ghost state for the recency argument: the service state, the step at which
each node was last selected, and the number of operations processed. -/
structure GhostState where
  st : SelState
  stamp : Nat → Nat
  step : Nat

/-- One ghost step: apply the operation; when a select operation passes
validation and selectability (exactly when `doSelectNode` runs), record the
new step counter as the node's last-selection time. -/
def ghostStep (validate : Nat → Option Nat) (g : GhostState) (op : SelOp) : GhostState :=
  let st1 := (applyOp validate g.st op).1
  match op with
  | .select raw _ =>
    match validate raw with
    | some node =>
      if isSelectableRef g.st.store node then
        ⟨st1, fun r => if r = node then g.step + 1 else g.stamp r, g.step + 1⟩
      else ⟨st1, g.stamp, g.step + 1⟩
    | none => ⟨st1, g.stamp, g.step + 1⟩
  | .unselect _ => ⟨st1, g.stamp, g.step + 1⟩

/-- The ghost run over a sequence of operations. -/
def ghostRun (validate : Nat → Option Nat) : GhostState → List SelOp → GhostState
  | g, [] => g
  | g, op :: ops => ghostRun validate (ghostStep validate g op) ops

/-- The claim C3 invariant: a node's `selected` flag reads `true` exactly when
the node is in `_selectedNodes`, and the list has no duplicates. -/
def SelInv (st : SelState) : Prop :=
  (∀ r, selectedFlag st.store r = true ↔ r ∈ st.selectedNodes) ∧ st.selectedNodes.Nodup

/-- The claim C1 invariant: `_selectedNodes` is strictly descending in the
last-selection step, and all recorded steps are within the processed
prefix. -/
def RecencyInv (g : GhostState) : Prop :=
  List.Pairwise (fun a b => g.stamp b < g.stamp a) g.st.selectedNodes ∧
    ∀ r ∈ g.st.selectedNodes, g.stamp r ≤ g.step

/-!
## Mock tree model and view-state storage
-/

/-- Sequential allocation of a list of nodes into the store: `f` allocates one
node and returns the grown store and the node's reference. -/
def allocList {α : Type} (f : α → List RawNode → List RawNode × Nat) :
    List α → List RawNode → List RawNode × List Nat
  | [], s => (s, [])
  | c :: cs, s =>
    let out := f c s
    let rest := allocList f cs out.1
    (rest.1, out.2 :: rest.2)

/-- Input of the mock model (test/mock-tree-model.ts, lines 11-14): an `id`
and children (`root.children || []` makes an absent array equal to `[]`). -/
inductive MockNode where
  | mk (id : String) (children : List MockNode)

/-- The `id` of a mock input node. -/
def MockNode.mid : MockNode → String
  | .mk i _ => i

/-- The children of a mock input node. -/
def MockNode.mchildren : MockNode → List MockNode
  | .mk _ cs => cs

/-- `Node.toTreeNode` (test/mock-tree-model.ts, lines 17-41) in the store
model.  The object literal `node` is allocated first with an empty children
array; the children are converted with `node` as their `parent`; when the
children list is non-empty the function returns a NEW spread copy
`{...node, selected, expanded, children}` — a fresh store entry — while the
children's parent references still point at the first allocation.  Fuel bounds
the recursion depth (any fuel at least the input height is exact). -/
def toTreeNode : Nat → MockNode → Option Nat → List RawNode → List RawNode × Nat
  | 0, n, parent, s =>
    (s ++ [⟨n.mid, n.mid, parent, some [], some false, some false⟩], s.length)
  | fuel + 1, n, parent, s =>
    let r0 := s.length
    let s1 := s ++ [⟨n.mid, n.mid, parent, some [], some false, some false⟩]
    let res := allocList (fun c acc => toTreeNode fuel c (some r0) acc) n.mchildren s1
    if res.2.isEmpty then (res.1, r0)
    else (res.1 ++ [⟨n.mid, n.mid, parent, some res.2, some false, some false⟩], res.1.length)

/-- A stored (deflated) node: every field of the tree node except the parent
pointer, which `deflateForStorage` deletes. -/
inductive SNode where
  | mk (id name : String) (children : Option (List SNode)) (expanded selected : Option Bool)

/-- The `id` of a stored node. -/
def SNode.sid : SNode → String
  | .mk i _ _ _ _ => i

/-- The `name` of a stored node. -/
def SNode.sname : SNode → String
  | .mk _ m _ _ _ => m

/-- The optional children of a stored node. -/
def SNode.schildren : SNode → Option (List SNode)
  | .mk _ _ cs _ _ => cs

/-- The optional `expanded` flag of a stored node. -/
def SNode.sexpanded : SNode → Option Bool
  | .mk _ _ _ e _ => e

/-- The optional `selected` flag of a stored node. -/
def SNode.sselected : SNode → Option Bool
  | .mk _ _ _ _ sel => sel

/-- Deflation of a children array (`copy.children.push(deflate(child))`). -/
def deflateChildren (f : Nat → Option SNode) : List Nat → Option (List SNode)
  | [] => some []
  | r :: rs =>
    match f r, deflateChildren f rs with
    | some d, some ds => some (d :: ds)
    | _, _ => none

/-- `TreeWidget.deflateForStorage` (widget source, lines 637-650): shallow-copy
the node, delete the parent pointer and, for a composite node, replace the
children array by the recursively deflated children.  `Object.assign` copies,
so the walked tree is only read, never written: in the store model the store
is untouched. -/
def deflateForStorage : Nat → List RawNode → Nat → Option SNode
  | 0, _, _ => none
  | fuel + 1, s, r =>
    match storeGet s r with
    | none => none
    | some n =>
      match n.children with
      | none => some (.mk n.id n.name none n.expanded n.selected)
      | some cs =>
        match deflateChildren (fun c => deflateForStorage fuel s c) cs with
        | some ds => some (.mk n.id n.name (some ds) n.expanded n.selected)
        | none => none

/-- The effect of `if (node.selected) { node.selected = false; }` on the
optional flag. -/
def clearTruthy : Option Bool → Option Bool
  | some true => some false
  | x => x

/-- `TreeWidget.inflateFromStorage` (widget source, lines 653-666) in the
store model: materialise the storage object as a store node (with a truthy
`selected` flag reset and the parent pointer set to the given parent), allocate
the children recursively with this node as their parent, and patch the node's
children array with their references — object identity of the mutated
storage graph is allocation identity here. -/
def inflateFromStorage : Nat → SNode → Option Nat → List RawNode → List RawNode × Nat
  | 0, d, parent, s =>
    (s ++ [⟨d.sid, d.sname, parent, none, d.sexpanded, clearTruthy d.sselected⟩], s.length)
  | fuel + 1, d, parent, s =>
    let r0 := s.length
    match d.schildren with
    | none =>
      (s ++ [⟨d.sid, d.sname, parent, none, d.sexpanded, clearTruthy d.sselected⟩], r0)
    | some cs =>
      let s1 := s ++ [⟨d.sid, d.sname, parent, some [], d.sexpanded, clearTruthy d.sselected⟩]
      let res := allocList (fun c acc => inflateFromStorage fuel c (some r0) acc) cs s1
      (res.1.set r0 ⟨d.sid, d.sname, parent, some res.2, d.sexpanded, clearTruthy d.sselected⟩, r0)

/-- Fuel adequacy for stored nodes: `fuel` exceeds the height. -/
def sDepthLe : Nat → SNode → Bool
  | 0, _ => false
  | fuel + 1, d =>
    match d.schildren with
    | none => true
    | some cs => cs.all (fun c => sDepthLe fuel c)

/-- A stored node with every truthy `selected` flag reset, the observation the
round trip is measured against. -/
def clearSelS : Nat → SNode → SNode
  | 0, d => d
  | fuel + 1, .mk i m cs e sel =>
    .mk i m (cs.map (fun l => l.map (fun c => clearSelS fuel c))) e (clearTruthy sel)

/-- Well-formedness of the store region `[lo, s.length)` produced by
inflation: every node there has a non-truthy `selected` flag, and every entry
of its children array is a region reference whose node's parent pointer is the
containing node. -/
def RegionOK (lo : Nat) (s : List RawNode) : Prop :=
  ∀ i, lo ≤ i → i < s.length →
    ∃ nd, storeGet s i = some nd ∧ nd.selected ≠ some true ∧
      ∀ cs2 c2, nd.children = some cs2 → c2 ∈ cs2 →
        lo ≤ c2 ∧ c2 < s.length ∧
        ∃ cn, storeGet s c2 = some cn ∧ cn.parent = some i

/-- Contract of one inflation call in calling context `(parent, s0)` with
result `out`: the node is allocated at the old end of the store, the prefix is
untouched, the root's parent pointer is the given one, deflating the root
reference through any store that agrees with `out.1` on the new region
recovers the storage object with truthy `selected` flags reset, and the new
region is well formed. -/
def InflOut (fuel : Nat) (d : SNode) (parent : Option Nat) (s0 : List RawNode)
    (out : List RawNode × Nat) : Prop :=
  out.2 = s0.length ∧
  s0.length < out.1.length ∧
  (∀ i, i < s0.length → storeGet out.1 i = storeGet s0 i) ∧
  (∃ nd, storeGet out.1 s0.length = some nd ∧ nd.parent = parent) ∧
  (∀ sx : List RawNode,
    (∀ i, s0.length ≤ i → i < out.1.length → storeGet sx i = storeGet out.1 i) →
    deflateForStorage fuel sx s0.length = some (clearSelS fuel d)) ∧
  RegionOK s0.length out.1

/-- The inflation contract holds at `fuel` for every storage object within
that depth. -/
def InfSpec (fuel : Nat) : Prop :=
  ∀ (d : SNode), sDepthLe fuel d = true →
    ∀ (parent : Option Nat) (s0 : List RawNode),
      InflOut fuel d parent s0 (inflateFromStorage fuel d parent s0)

/-- The list-level inflation contract for a children array allocated with
parent `par`, mirroring `InflOut` root by root. -/
def InflListOut (fuel : Nat) (cs : List SNode) (par : Nat) (s0 : List RawNode)
    (out : List RawNode × List Nat) : Prop :=
  s0.length ≤ out.1.length ∧
  (∀ i, i < s0.length → storeGet out.1 i = storeGet s0 i) ∧
  out.2.length = cs.length ∧
  (∀ r ∈ out.2, s0.length ≤ r ∧ r < out.1.length ∧
    ∃ cn, storeGet out.1 r = some cn ∧ cn.parent = some par) ∧
  (∀ k c, cs.get? k = some c → ∃ r, out.2.get? k = some r ∧
    ∀ sx : List RawNode,
      (∀ i, s0.length ≤ i → i < out.1.length → storeGet sx i = storeGet out.1 i) →
      deflateForStorage fuel sx r = some (clearSelS fuel c)) ∧
  RegionOK s0.length out.1

/-- Index of the first occurrence of `x` in `l` (`l.length` collapses to 0 when
absent); used as the progress measure for iterator termination. -/
def posIn : List (List Nat) → List Nat → Nat
  | [], _ => 0
  | y :: l, x => if y = x then 0 else posIn l x + 1

-- Sanity checks on the mock model tree shape (subtree of MOCK_ROOT).
section SanityChecks

def mLeaf (s : String) : MTree := .mk s s none (some false) (some false)

def mNode (s : String) (e : Bool) (cs : List MTree) : MTree :=
  .mk s s (some cs) (some e) (some false)

def sampleT : MTree :=
  mNode "1" true
    [mNode "1.1" false [mLeaf "1.1.1", mLeaf "1.1.2"], mLeaf "1.2"]

example : depthLe 3 sampleT = true := by decide

example : preorder 3 false sampleT = [[], [0], [0, 0], [0, 1], [1]] := by decide

example : preorder 3 true sampleT = [[], [0], [1]] := by decide

example : fwdDoNext true sampleT [0] = some [1] := by decide

example : fwdDoNext false sampleT [0] = some [0, 0] := by decide

example : fwdCollect false sampleT 9 [] = [[0], [0, 0], [0, 1], [1]] := by decide

example : bwdDoNext 3 true sampleT [1] = some [0] := by decide

example : bwdDoNext 3 false sampleT [1] = some [0, 1] := by decide

-- Selection sanity: mirrors tree-selection.spec.ts cases, nodes A = 0, B = 1, X = 2.
def selTestStore : List RawNode :=
  [⟨"A", "A", none, none, none, some false⟩,
   ⟨"B", "B", none, none, none, some false⟩,
   ⟨"X", "X", none, none, none, some false⟩]

-- Selected nodes [B, A], select A multi-individual => [A, B].
example :
    (selectNode some ⟨selTestStore, [1, 0]⟩ 0 (some .multiIndividual)).1.selectedNodes
      = [0, 1] := by decide

-- Selected nodes [B, A], select A single => [A].
example :
    (selectNode some ⟨selTestStore, [1, 0]⟩ 0 (some .single)).1.selectedNodes = [0] := by
  decide

-- Selected nodes [B, A], select X multi-individual => [X, B, A].
example :
    (selectNode some ⟨selTestStore, [1, 0]⟩ 2 (some .multiIndividual)).1.selectedNodes
      = [2, 1, 0] := by decide

-- Selected nodes [A], select A multi-individual => [A], no event.
example : (selectNode some ⟨selTestStore, [0]⟩ 0 (some .multiIndividual)).2 = [] := by decide

-- unselectNode(undefined) from an empty selection still fires one event.
example : (unselectNode some ⟨selTestStore, []⟩ none).2 = [[]] := by decide

-- toTreeNode on { id: "1", children: [{ id: "1.1" }] }: the returned composite
-- is the spread copy (reference 2), the child's parent is reference 0 whose
-- children array is empty.
example :
    (toTreeNode 3 (.mk "1" [.mk "1.1" []]) none []).2 = 2 ∧
    (storeGet (toTreeNode 3 (.mk "1" [.mk "1.1" []]) none []).1 2).map RawNode.children
      = some (some [1]) ∧
    (storeGet (toTreeNode 3 (.mk "1" [.mk "1.1" []]) none []).1 1).map RawNode.parent
      = some (some 0) ∧
    (storeGet (toTreeNode 3 (.mk "1" [.mk "1.1" []]) none []).1 0).map RawNode.children
      = some (some []) := by decide

-- deflate/inflate round trip on a two-level tree with a selected child.
def rtStore : List RawNode :=
  [⟨"r", "root", none, some [1, 2], some true, some false⟩,
   ⟨"a", "a", some 0, none, none, some true⟩,
   ⟨"b", "b", some 0, some [], some false, none⟩]

def rtD : SNode :=
  .mk "r" "root"
    (some [.mk "a" "a" none none (some true), .mk "b" "b" (some []) (some false) none])
    (some true) (some false)

example : deflateForStorage 3 rtStore 0 = some rtD := rfl

example :
    deflateForStorage 3 (inflateFromStorage 3 rtD none []).1
      (inflateFromStorage 3 rtD none []).2 = some (clearSelS 3 rtD) := rfl

end SanityChecks

/-!
## Iterator protocol (claim C10)
-/

theorem iterRun_none (step : List Nat → Option (List Nat)) :
    ∀ k, iterRun step k none = List.replicate k ⟨none, true⟩ := by
  intro k
  induction k with
  | zero => rfl
  | succ k ih => simp [iterRun, iterNext, ih, List.replicate_succ]

/-- C10.  Iterator end-of-stream shape: when an iterator with `doNext = step`
stands on a node without a successor, `next()` first answers
`{ value: undefined, done: false }` exactly once, and every further call
answers `done: true` (with no value), so the iterator never resumes after
reporting done. -/
theorem iterator_end_of_stream (step : List Nat → Option (List Nat))
    (p : List Nat) (k : Nat) (h : step p = none) :
    iterRun step (k + 1) (some p) =
      IterResult.mk none false :: List.replicate k ⟨none, true⟩ := by
  simp [iterRun, iterNext, h, iterRun_none]

theorem iterator_end_of_stream_witness :
    fwdDoNext true sampleT [1] = none ∧
      iterRun (fwdDoNext true sampleT) 3 (some [1]) =
        [⟨none, false⟩, ⟨none, true⟩, ⟨none, true⟩] := by
  refine ⟨by decide, ?_⟩
  have h := iterator_end_of_stream (fwdDoNext true sampleT) [1] 2 (by decide)
  simpa using h

/-!
## Basic facts about paths and the pre-order traversal
-/

theorem preorder_head (n : Nat) (prune : Bool) (t : MTree) :
    (preorder n prune t).head? = some [] := by
  cases n <;> rfl

theorem preorder_ne_nil (n : Nat) (prune : Bool) (t : MTree) :
    preorder n prune t ≠ [] := by
  cases n <;> simp [preorder]

theorem childrenList_ne_nil_of_hasChildren {prune : Bool} {t : MTree}
    (h : hasChildrenB prune t = true) : childrenList t ≠ [] := by
  intro hnil
  simp [hasChildrenB, hnil, List.isEmpty] at h

theorem joinIndexed_mem {parts : List (List (List Nat))} {i : Nat} {q : List Nat} :
    q ∈ joinIndexed parts i ↔
      ∃ k part p, parts.get? k = some part ∧ p ∈ part ∧ q = (i + k) :: p := by
  induction parts generalizing i with
  | nil => simp [joinIndexed]
  | cons part parts ih =>
    simp only [joinIndexed, List.mem_append, List.mem_map, ih]
    constructor
    · rintro (⟨p, hp, rfl⟩ | ⟨k, pt, p, hk, hp, rfl⟩)
      · exact ⟨0, part, p, rfl, hp, by simp⟩
      · refine ⟨k + 1, pt, p, by simpa using hk, hp, ?_⟩
        have h1 : i + 1 + k = i + (k + 1) := by omega
        rw [h1]
    · rintro ⟨k, pt, p, hk, hp, rfl⟩
      cases k with
      | zero =>
        left
        simp only [List.get?] at hk
        cases hk
        exact ⟨p, hp, by simp⟩
      | succ k =>
        right
        refine ⟨k, pt, p, by simpa using hk, hp, ?_⟩
        have h1 : i + (k + 1) = i + 1 + k := by omega
        rw [h1]

theorem depthLe_child {n : Nat} {t c : MTree} (h : depthLe (n + 1) t = true)
    (hc : c ∈ childrenList t) : depthLe n c = true := by
  simp only [depthLe, List.all_eq_true] at h
  exact h c hc

theorem depthLe_mono : ∀ {n : Nat} {t : MTree}, depthLe n t = true →
    ∀ {m : Nat}, n ≤ m → depthLe m t = true := by
  intro n
  induction n with
  | zero => intro t h; simp [depthLe] at h
  | succ n ih =>
    intro t h m hm
    obtain ⟨m, rfl⟩ : ∃ k, m = k + 1 := ⟨m - 1, by omega⟩
    simp only [depthLe, List.all_eq_true] at h ⊢
    exact fun c hc => ih (h c hc) (by omega)

theorem nodeAt_append (p q : List Nat) (t : MTree) :
    nodeAt (p ++ q) t = (nodeAt p t).bind (nodeAt q) := by
  induction p generalizing t with
  | nil => simp [nodeAt]
  | cons i p ih =>
    simp only [List.cons_append, nodeAt]
    cases (childrenList t).get? i with
    | none => rfl
    | some c => simp [ih]

theorem nodeAt_snoc (p : List Nat) (j : Nat) (t : MTree) :
    nodeAt (p ++ [j]) t = (nodeAt p t).bind (fun n => (childrenList n).get? j) := by
  rw [nodeAt_append]
  cases nodeAt p t with
  | none => rfl
  | some n =>
    show nodeAt [j] n = (childrenList n).get? j
    simp only [nodeAt]
    cases (childrenList n).get? j <;> rfl

theorem depthLe_nodeAt : ∀ {p : List Nat} {n : Nat} {t s : MTree},
    depthLe n t = true → nodeAt p t = some s → depthLe n s = true := by
  intro p
  induction p with
  | nil => intro n t s h hs; cases hs; exact h
  | cons i p ih =>
    intro n t s h hs
    cases hg : (childrenList t).get? i with
    | none => rw [nodeAt, hg] at hs; simp at hs
    | some c =>
      rw [nodeAt, hg] at hs
      simp only [Option.some_bind] at hs
      have hc : c ∈ childrenList t := List.get?_mem hg
      obtain ⟨m, rfl⟩ : ∃ m, n = m + 1 := by
        cases n with
        | zero => simp [depthLe] at h
        | succ m => exact ⟨m, rfl⟩
      exact depthLe_mono (ih (depthLe_child h hc) hs) (by omega)

/-!
## Forward iterator: lifting through a child and the successor chain
-/

theorem getNextSibling_nil (t : MTree) : getNextSibling t [] = none := rfl

theorem fnsGo_nil (t : MTree) (fuel : Nat) : fnsGo t fuel [] = none := by
  cases fuel <;> rfl

theorem findNextSibling_nil (t : MTree) : findNextSibling t [] = none := rfl

theorem getNextSibling_singleton (t : MTree) (i : Nat) :
    getNextSibling t [i] =
      if i + 1 < (childrenList t).length then some [i + 1] else none := by
  simp [getNextSibling, nodeAt]

theorem fnsGo_fuel_irrel (t : MTree) :
    ∀ (k : Nat) (p : List Nat) (f1 f2 : Nat), p.length ≤ k →
      p.length ≤ f1 → p.length ≤ f2 → fnsGo t f1 p = fnsGo t f2 p := by
  intro k
  induction k with
  | zero =>
    intro p f1 f2 hk _ _
    obtain rfl : p = [] := List.eq_nil_of_length_eq_zero (by omega)
    rw [fnsGo_nil, fnsGo_nil]
  | succ k ih =>
    intro p f1 f2 hk h1 h2
    cases p with
    | nil => rw [fnsGo_nil, fnsGo_nil]
    | cons x xs =>
      simp only [List.length_cons] at hk h1 h2
      obtain ⟨g1, rfl⟩ : ∃ g, f1 = g + 1 := ⟨f1 - 1, by omega⟩
      obtain ⟨g2, rfl⟩ : ∃ g, f2 = g + 1 := ⟨f2 - 1, by omega⟩
      simp only [fnsGo]
      cases h : getNextSibling t (x :: xs) with
      | some q => rfl
      | none =>
        exact ih (x :: xs).dropLast g1 g2 (by simp; omega) (by simp; omega) (by simp; omega)

theorem findNextSibling_cons_some {t : MTree} {x : Nat} {xs q : List Nat}
    (h : getNextSibling t (x :: xs) = some q) :
    findNextSibling t (x :: xs) = some q := by
  show fnsGo t (x :: xs).length (x :: xs) = some q
  simp only [List.length_cons, fnsGo, h]

theorem findNextSibling_cons_none {t : MTree} {x : Nat} {xs : List Nat}
    (h : getNextSibling t (x :: xs) = none) :
    findNextSibling t (x :: xs) = findNextSibling t (x :: xs).dropLast := by
  show fnsGo t (x :: xs).length (x :: xs) = _
  simp only [List.length_cons, fnsGo, h]
  exact fnsGo_fuel_irrel t (x :: xs).dropLast.length _ _ _ le_rfl (by simp) le_rfl

theorem findNextSibling_singleton (t : MTree) (i : Nat) :
    findNextSibling t [i] = getNextSibling t [i] := by
  cases h : getNextSibling t [i] with
  | some q => exact findNextSibling_cons_some h
  | none => rw [findNextSibling_cons_none h]; exact findNextSibling_nil t

section ChildLift

variable {t c : MTree} {i : Nat}

theorem nodeAt_cons (hc : (childrenList t).get? i = some c) (p : List Nat) :
    nodeAt (i :: p) t = nodeAt p c := by
  show ((childrenList t).get? i).bind (nodeAt p) = nodeAt p c
  rw [hc]
  rfl

theorem getNextSibling_lift (hc : (childrenList t).get? i = some c)
    {p : List Nat} (hp : p ≠ []) :
    getNextSibling t (i :: p) = (getNextSibling c p).map (fun q => i :: q) := by
  obtain ⟨x, xs, rfl⟩ : ∃ x xs, p = x :: xs := by
    cases p with
    | nil => exact absurd rfl hp
    | cons x xs => exact ⟨x, xs, rfl⟩
  have hlast : (i :: x :: xs).getLast? = (x :: xs).getLast? := List.getLast?_cons_cons
  have hdrop : (i :: x :: xs).dropLast = i :: (x :: xs).dropLast := List.dropLast_cons₂
  simp only [getNextSibling, hlast, hdrop, nodeAt_cons hc]
  obtain ⟨j, hj⟩ : ∃ j, (x :: xs).getLast? = some j :=
    ⟨_, List.getLast?_eq_getLast _ (by simp)⟩
  rw [hj]
  cases hn : nodeAt (x :: xs).dropLast c with
  | none => rfl
  | some par =>
    by_cases hlt : j + 1 < (childrenList par).length <;> simp [hlt]

theorem findNextSibling_lift_some (hc : (childrenList t).get? i = some c) :
    ∀ (k : Nat) (p q : List Nat), p.length ≤ k → p ≠ [] →
      findNextSibling c p = some q → findNextSibling t (i :: p) = some (i :: q) := by
  intro k
  induction k with
  | zero =>
    intro p q hk hp _
    obtain rfl : p = [] := List.eq_nil_of_length_eq_zero (by omega)
    exact absurd rfl hp
  | succ k ih =>
    intro p q hk hp h
    obtain ⟨x, xs, rfl⟩ : ∃ x xs, p = x :: xs := by
      cases p with
      | nil => exact absurd rfl hp
      | cons x xs => exact ⟨x, xs, rfl⟩
    cases hg : getNextSibling c (x :: xs) with
    | some r =>
      rw [findNextSibling_cons_some hg] at h
      cases h
      exact findNextSibling_cons_some
        (by rw [getNextSibling_lift hc (p := x :: xs) (by simp), hg]; rfl)
    | none =>
      rw [findNextSibling_cons_none hg] at h
      have hlift : getNextSibling t (i :: x :: xs) = none := by
        rw [getNextSibling_lift hc (p := x :: xs) (by simp), hg]; rfl
      rw [findNextSibling_cons_none hlift, List.dropLast_cons₂]
      cases hd : (x :: xs).dropLast with
      | nil =>
        rw [hd] at h
        rw [findNextSibling_nil] at h
        cases h
      | cons y ys =>
        rw [← hd]
        exact ih (x :: xs).dropLast q (by simp at hk ⊢; omega) (by rw [hd]; simp) h

theorem findNextSibling_lift_none (hc : (childrenList t).get? i = some c) :
    ∀ (k : Nat) (p : List Nat), p.length ≤ k → p ≠ [] →
      findNextSibling c p = none →
      findNextSibling t (i :: p) = getNextSibling t [i] := by
  intro k
  induction k with
  | zero =>
    intro p hk hp _
    obtain rfl : p = [] := List.eq_nil_of_length_eq_zero (by omega)
    exact absurd rfl hp
  | succ k ih =>
    intro p hk hp h
    obtain ⟨x, xs, rfl⟩ : ∃ x xs, p = x :: xs := by
      cases p with
      | nil => exact absurd rfl hp
      | cons x xs => exact ⟨x, xs, rfl⟩
    cases hg : getNextSibling c (x :: xs) with
    | some r =>
      rw [findNextSibling_cons_some hg] at h
      cases h
    | none =>
      rw [findNextSibling_cons_none hg] at h
      have hlift : getNextSibling t (i :: x :: xs) = none := by
        rw [getNextSibling_lift hc (p := x :: xs) (by simp), hg]; rfl
      rw [findNextSibling_cons_none hlift, List.dropLast_cons₂]
      cases hd : (x :: xs).dropLast with
      | nil =>
        exact findNextSibling_singleton t i
      | cons y ys =>
        rw [← hd]
        exact ih (x :: xs).dropLast (by simp at hk ⊢; omega) (by rw [hd]; simp) h

theorem findFirstChild_lift (hc : (childrenList t).get? i = some c)
    (prune : Bool) (p : List Nat) :
    findFirstChild prune t (i :: p) = (findFirstChild prune c p).map (fun q => i :: q) := by
  simp only [findFirstChild, nodeAt_cons hc]
  cases nodeAt p c with
  | none => rfl
  | some n =>
    by_cases hh : hasChildrenB prune n = true <;> simp [hh]

theorem fwdDoNext_lift_some (hc : (childrenList t).get? i = some c)
    {prune : Bool} {p q : List Nat} (h : fwdDoNext prune c p = some q) :
    fwdDoNext prune t (i :: p) = some (i :: q) := by
  unfold fwdDoNext at h ⊢
  rw [findFirstChild_lift hc]
  cases hf : findFirstChild prune c p with
  | some r =>
    rw [hf] at h
    cases h
    rfl
  | none =>
    rw [hf] at h
    simp only [Option.map_none']
    cases hp : p with
    | nil =>
      rw [hp] at h
      rw [findNextSibling_nil] at h
      cases h
    | cons x xs =>
      rw [← hp]
      exact findNextSibling_lift_some hc p.length p q le_rfl (by rw [hp]; simp) h

theorem fwdDoNext_lift_none (hc : (childrenList t).get? i = some c)
    {prune : Bool} {p : List Nat} (h : fwdDoNext prune c p = none) :
    fwdDoNext prune t (i :: p) = getNextSibling t [i] := by
  unfold fwdDoNext at h ⊢
  rw [findFirstChild_lift hc]
  cases hf : findFirstChild prune c p with
  | some r => rw [hf] at h; cases h
  | none =>
    rw [hf] at h
    simp only [Option.map_none']
    cases hp : p with
    | nil => rw [findNextSibling_singleton]
    | cons x xs =>
      rw [← hp]
      exact findNextSibling_lift_none hc p.length p le_rfl (by rw [hp]; simp) h

end ChildLift

theorem joinIndexed_cons (part : List (List Nat)) (parts : List (List (List Nat))) (i : Nat) :
    joinIndexed (part :: parts) i = part.map (fun q => i :: q) ++ joinIndexed parts (i + 1) :=
  rfl

theorem preorder_getLast_exists (n : Nat) (prune : Bool) (t : MTree) :
    ∃ lp, (preorder n prune t).getLast? = some lp :=
  ⟨_, List.getLast?_eq_getLast _ (preorder_ne_nil n prune t)⟩

/-- Chain and boundary facts for the concatenated child traversals: given the
per-child chain facts, the concatenation starting at child index `i` is chained
by the forward step of `t`, its last element has no forward step when the
children end at the end of `t`'s children array, and its head is the first
child. -/
theorem fwd_chain_join (prune : Bool) (n : Nat) (t : MTree) :
    ∀ (cs : List MTree) (i : Nat),
      (∀ k c, cs.get? k = some c → (childrenList t).get? (i + k) = some c) →
      (∀ c ∈ cs,
        List.Chain' (fun a b => fwdDoNext prune c a = some b) (preorder n prune c) ∧
          ∀ p, (preorder n prune c).getLast? = some p → fwdDoNext prune c p = none) →
      i + cs.length = (childrenList t).length →
      List.Chain' (fun a b => fwdDoNext prune t a = some b)
          (joinIndexed (cs.map (preorder n prune)) i) ∧
        (∀ p, (joinIndexed (cs.map (preorder n prune)) i).getLast? = some p →
          fwdDoNext prune t p = none) ∧
        (cs ≠ [] → (joinIndexed (cs.map (preorder n prune)) i).head? = some [i]) := by
  intro cs
  induction cs with
  | nil =>
    intro i _ _ _
    refine ⟨by simp [joinIndexed], ?_, by simp⟩
    intro p hp
    simp [joinIndexed] at hp
  | cons c cs ih =>
    intro i hget hfacts hlen
    have hc : (childrenList t).get? i = some c := by simpa using hget 0 c rfl
    have hchild := hfacts c (by simp)
    obtain ⟨lp, hlp⟩ := preorder_getLast_exists n prune c
    have hlast_none : fwdDoNext prune c lp = none := hchild.2 lp hlp
    have hA_chain : List.Chain' (fun a b => fwdDoNext prune t a = some b)
        ((preorder n prune c).map (fun q => i :: q)) := by
      rw [List.chain'_map]
      exact hchild.1.imp (fun a b hab => fwdDoNext_lift_some hc hab)
    have hA_last : ((preorder n prune c).map (fun q => i :: q)).getLast? = some (i :: lp) := by
      rw [List.getLast?_map, hlp]
      rfl
    have hA_head : ((preorder n prune c).map (fun q => i :: q)).head? = some [i] := by
      rw [List.head?_map, preorder_head]
      rfl
    rw [List.map_cons, joinIndexed_cons]
    by_cases hcs : cs = []
    · subst hcs
      simp only [List.map_nil, joinIndexed, List.append_nil, List.length_cons,
        List.length_nil] at hlen ⊢
      refine ⟨hA_chain, ?_, fun _ => hA_head⟩
      intro p hp
      rw [hA_last] at hp
      cases hp
      rw [fwdDoNext_lift_none hc hlast_none, getNextSibling_singleton]
      have : ¬ (i + 1 < (childrenList t).length) := by omega
      simp [this]
    · have hlen2 : i + 1 + cs.length = (childrenList t).length := by
        simp only [List.length_cons] at hlen
        omega
      have hget2 : ∀ k c2, cs.get? k = some c2 → (childrenList t).get? (i + 1 + k) = some c2 := by
        intro k c2 hk
        have := hget (k + 1) c2 (by simpa using hk)
        have harith : i + (k + 1) = i + 1 + k := by omega
        rwa [harith] at this
      obtain ⟨hB_chain, hB_last, hB_head⟩ :=
        ih (i + 1) hget2 (fun c2 hc2 => hfacts c2 (by simp [hc2])) hlen2
      have hB_head2 := hB_head hcs
      have hcs_len : 1 ≤ cs.length := by
        cases cs with
        | nil => exact absurd rfl hcs
        | cons _ _ => simp
      have hboundary : fwdDoNext prune t (i :: lp) = some [i + 1] := by
        rw [fwdDoNext_lift_none hc hlast_none, getNextSibling_singleton]
        have : i + 1 < (childrenList t).length := by omega
        simp [this]
      constructor
      · rw [List.chain'_append]
        refine ⟨hA_chain, hB_chain, ?_⟩
        intro x hx y hy
        rw [hA_last] at hx
        rw [hB_head2] at hy
        cases hx
        cases hy
        exact hboundary
      constructor
      · intro p hp
        have hBne : joinIndexed (cs.map (preorder n prune)) (i + 1) ≠ [] := by
          intro hnil
          rw [hnil] at hB_head2
          cases hB_head2
        rw [List.getLast?_append_of_ne_nil _ hBne] at hp
        exact hB_last p hp
      · intro _
        have hAne : ((preorder n prune c).map (fun q => i :: q)) ≠ [] := by
          intro hnil
          rw [hnil] at hA_head
          cases hA_head
        rw [List.head?_append_of_ne_nil _ hAne]
        exact hA_head

/-- The pre-order list of every tree is chained by the forward step, and its
last element has no forward step. -/
theorem fwd_master (prune : Bool) :
    ∀ (n : Nat) (t : MTree), depthLe n t = true →
      List.Chain' (fun a b => fwdDoNext prune t a = some b) (preorder n prune t) ∧
        ∀ p, (preorder n prune t).getLast? = some p → fwdDoNext prune t p = none := by
  intro n
  induction n with
  | zero =>
    intro t hd
    simp [depthLe] at hd
  | succ n ih =>
    intro t hd
    have hroot_none_aux : findNextSibling t [] = none := findNextSibling_nil t
    by_cases hh : hasChildrenB prune t = true
    · have hcs : childrenList t ≠ [] := childrenList_ne_nil_of_hasChildren hh
      obtain ⟨hchain, hlast, hhead⟩ :=
        fwd_chain_join prune n t (childrenList t) 0
          (fun k c hk => by simpa using hk)
          (fun c hc => ih c (depthLe_child hd hc))
          (by simp)
      have hhead2 := hhead hcs
      have hroot_step : fwdDoNext prune t [] = some [0] := by
        unfold fwdDoNext findFirstChild
        simp [nodeAt, hh]
      have hpre : preorder (n + 1) prune t =
          [([] : List Nat)] ++ joinIndexed ((childrenList t).map (preorder n prune)) 0 := by
        simp [preorder, hh]
      rw [hpre]
      constructor
      · rw [List.chain'_append]
        refine ⟨List.chain'_singleton _, hchain, ?_⟩
        intro x hx y hy
        cases hx
        rw [hhead2] at hy
        cases hy
        exact hroot_step
      · intro p hp
        have hJne : joinIndexed ((childrenList t).map (preorder n prune)) 0 ≠ [] := by
          intro hnil
          rw [hnil] at hhead2
          cases hhead2
        rw [List.getLast?_append_of_ne_nil _ hJne] at hp
        exact hlast p hp
    · have hpre : preorder (n + 1) prune t = [[]] := by
        simp [preorder, hh]
      rw [hpre]
      refine ⟨List.chain'_singleton _, ?_⟩
      intro p hp
      simp at hp
      subst hp
      unfold fwdDoNext findFirstChild
      simp [nodeAt, hh, hroot_none_aux]

/-- C2.  Forward iteration with collapsed-subtree pruning: from any starting
node of the (pruned) pre-order traversal, the forward iterator yields exactly
the nodes that strictly follow the starting node in the pre-order traversal of
the tree in which the children of every composite node failing `hasChildren`
are ignored — with `pruneCollapsed = true` that ignores every collapsed
subtree, with `pruneCollapsed = false` no subtree is ignored.  `fuel` is any
bound at least the number of remaining nodes, so the list of yielded nodes is
exactly `ys`. -/
theorem forward_iteration_preorder (prune : Bool) (n : Nat) (t : MTree)
    (hd : depthLe n t = true) :
    ∀ (ys xs : List (List Nat)) (p : List Nat) (fuel : Nat),
      preorder n prune t = xs ++ p :: ys → ys.length ≤ fuel →
      fwdCollect prune t fuel p = ys := by
  intro ys
  induction ys with
  | nil =>
    intro xs p fuel hsplit _
    have hlastp : (preorder n prune t).getLast? = some p := by
      rw [hsplit]
      exact List.getLast?_concat _
    have hnone : fwdDoNext prune t p = none := (fwd_master prune n t hd).2 p hlastp
    cases fuel with
    | zero => rfl
    | succ f => simp [fwdCollect, hnone]
  | cons q ys2 ih =>
    intro xs p fuel hsplit hfuel
    have hch := (fwd_master prune n t hd).1
    rw [hsplit] at hch
    have hstep : fwdDoNext prune t p = some q :=
      (List.chain'_cons.mp (List.chain'_append.mp hch).2.1).1
    obtain ⟨f, rfl⟩ : ∃ f, fuel = f + 1 := ⟨fuel - 1, by simp at hfuel; omega⟩
    have hsplit2 : preorder n prune t = (xs ++ [p]) ++ q :: ys2 := by
      rw [hsplit]
      simp
    have : fwdCollect prune t f q = ys2 := ih (xs ++ [p]) q f hsplit2 (by simp at hfuel; omega)
    simp [fwdCollect, hstep, this]

theorem forward_iteration_preorder_witness :
    fwdCollect true sampleT 2 [0] = [[1]] ∧
      fwdCollect false sampleT 9 [] = [[0], [0, 0], [0, 1], [1]] :=
  ⟨forward_iteration_preorder true 3 sampleT (by decide) [[1]] [[]] [0] 2 (by decide)
      (by decide),
    forward_iteration_preorder false 3 sampleT (by decide) [[0], [0, 0], [0, 1], [1]] [] [] 9
      (by decide) (by decide)⟩

/-!
## Backward iterator: lifting, fuel stability, and the predecessor chain
-/

theorem getLast?_mem_list {α : Type} {l : List α} {a : α} (h : l.getLast? = some a) :
    a ∈ l := by
  obtain ⟨hne, rfl⟩ := List.mem_getLast?_eq_getLast (x := a) (by rw [h]; rfl)
  exact List.getLast_mem hne

theorem bwdDoNext_nil (fuel : Nat) (prune : Bool) (t : MTree) :
    bwdDoNext fuel prune t [] = none := rfl

theorem getPrevSibling_singleton (t : MTree) (i : Nat) :
    getPrevSibling t [i] = if i = 0 then none else some [i - 1] := by
  simp [getPrevSibling, nodeAt]

theorem getPrevSibling_shape {t : MTree} {p ps : List Nat}
    (h : getPrevSibling t p = some ps) : ∃ a j, ps = a ++ [j] := by
  unfold getPrevSibling at h
  cases hl : p.getLast? with
  | none => rw [hl] at h; cases h
  | some j =>
    rw [hl] at h
    cases hn : nodeAt p.dropLast t with
    | none => rw [hn] at h; cases h
    | some par =>
      rw [hn] at h
      by_cases hz : j = 0
      · simp [hz] at h
      · simp [hz] at h
        exact ⟨p.dropLast, j - 1, h.symm⟩

theorem depthLe_nodeAt_snoc {n : Nat} {t s : MTree} {q : List Nat} {j : Nat}
    (hd : depthLe (n + 1) t = true) (hs : nodeAt (q ++ [j]) t = some s) :
    depthLe n s = true := by
  rw [nodeAt_snoc] at hs
  cases hq : nodeAt q t with
  | none => rw [hq] at hs; cases hs
  | some par =>
    rw [hq] at hs
    simp only [Option.some_bind] at hs
    have hmem : s ∈ childrenList par := List.get?_mem hs
    exact depthLe_child (depthLe_nodeAt hd hq) hmem

theorem lastDescRel_stable (prune : Bool) :
    ∀ (m : Nat) (c : MTree), depthLe m c = true →
      ∀ fu, m ≤ fu → lastDescRel prune fu c = lastDescRel prune m c := by
  intro m
  induction m with
  | zero => intro c hd; simp [depthLe] at hd
  | succ m ih =>
    intro c hd fu hfu
    obtain ⟨g, rfl⟩ : ∃ g, fu = g + 1 := ⟨fu - 1, by omega⟩
    show lastDescRel prune (g + 1) c = lastDescRel prune (m + 1) c
    simp only [lastDescRel]
    by_cases hh : hasChildrenB prune c = true
    · simp only [hh, if_true]
      cases hl : (childrenList c).getLast? with
      | none => rfl
      | some c2 =>
        have hm : c2 ∈ childrenList c := getLast?_mem_list hl
        have hd2 : depthLe m c2 = true := depthLe_child hd hm
        simp [ih c2 hd2 g (by omega)]
    · simp [hh]

theorem bwdDoNext_fuel {prune : Bool} {n : Nat} {t : MTree}
    (hd : depthLe (n + 1) t = true) (p : List Nat) {f1 f2 : Nat}
    (h1 : n ≤ f1) (h2 : n ≤ f2) :
    bwdDoNext f1 prune t p = bwdDoNext f2 prune t p := by
  unfold bwdDoNext
  cases hg : getPrevSibling t p with
  | none => rfl
  | some ps =>
    obtain ⟨a, j, rfl⟩ := getPrevSibling_shape hg
    simp only [findLastChildFrom]
    cases hn : nodeAt (a ++ [j]) t with
    | none => rfl
    | some s =>
      have hds : depthLe n s = true := depthLe_nodeAt_snoc hd hn
      simp [lastDescRel_stable prune n s hds f1 h1, lastDescRel_stable prune n s hds f2 h2]

section BwdChildLift

variable {t c : MTree} {i : Nat}

theorem getPrevSibling_lift (hc : (childrenList t).get? i = some c)
    {p : List Nat} (hp : p ≠ []) :
    getPrevSibling t (i :: p) = (getPrevSibling c p).map (fun q => i :: q) := by
  obtain ⟨x, xs, rfl⟩ : ∃ x xs, p = x :: xs := by
    cases p with
    | nil => exact absurd rfl hp
    | cons x xs => exact ⟨x, xs, rfl⟩
  have hlast : (i :: x :: xs).getLast? = (x :: xs).getLast? := List.getLast?_cons_cons
  have hdrop : (i :: x :: xs).dropLast = i :: (x :: xs).dropLast := List.dropLast_cons₂
  simp only [getPrevSibling, hlast, hdrop, nodeAt_cons hc]
  obtain ⟨j, hj⟩ : ∃ j, (x :: xs).getLast? = some j :=
    ⟨_, List.getLast?_eq_getLast _ (by simp)⟩
  rw [hj]
  cases hn : nodeAt (x :: xs).dropLast c with
  | none => rfl
  | some par =>
    by_cases hz : j = 0 <;> simp [hz]

theorem findLastChildFrom_lift (hc : (childrenList t).get? i = some c)
    (fu : Nat) (prune : Bool) (q : List Nat) :
    findLastChildFrom fu prune t (some (i :: q)) =
      (findLastChildFrom fu prune c (some q)).map (fun r => i :: r) := by
  simp only [findLastChildFrom]
  rw [nodeAt_cons hc]
  cases nodeAt q c with
  | none => rfl
  | some s => simp

theorem bwdDoNext_lift (hc : (childrenList t).get? i = some c)
    {fu : Nat} {prune : Bool} {p : List Nat} (hp : p ≠ []) :
    bwdDoNext fu prune t (i :: p) = (bwdDoNext fu prune c p).map (fun r => i :: r) := by
  obtain ⟨x, xs, rfl⟩ : ∃ x xs, p = x :: xs := by
    cases p with
    | nil => exact absurd rfl hp
    | cons x xs => exact ⟨x, xs, rfl⟩
  unfold bwdDoNext
  rw [getPrevSibling_lift hc (p := x :: xs) (by simp)]
  cases hg : getPrevSibling c (x :: xs) with
  | some ps =>
    simp only [Option.map_some']
    rw [findLastChildFrom_lift hc]
    obtain ⟨r, hr⟩ : ∃ r, findLastChildFrom fu prune c (some ps) = some r := by
      simp only [findLastChildFrom]
      cases nodeAt ps c with
      | none => exact ⟨ps, rfl⟩
      | some s => exact ⟨ps ++ lastDescRel prune fu s, rfl⟩
    rw [hr]
    simp
  | none =>
    simp only [Option.map_none']
    show parentOf (i :: x :: xs) = _
    unfold findLastChildFrom parentOf
    simp [List.dropLast_cons₂]

theorem bwdDoNext_singleton_zero (fu : Nat) (prune : Bool) (t : MTree) :
    bwdDoNext fu prune t [0] = some [] := by
  unfold bwdDoNext
  rw [getPrevSibling_singleton]
  simp [findLastChildFrom, parentOf]

theorem bwdDoNext_singleton_pos (hc : (childrenList t).get? (i - 1) = some c)
    (hi : i ≠ 0) (fu : Nat) (prune : Bool) :
    bwdDoNext fu prune t [i] = some ((i - 1) :: lastDescRel prune fu c) := by
  unfold bwdDoNext
  rw [getPrevSibling_singleton]
  have hat : nodeAt [i - 1] t = some c := by
    show ((childrenList t).get? (i - 1)).bind (nodeAt []) = some c
    rw [hc]
    rfl
  simp [hi, findLastChildFrom, hat]

end BwdChildLift

/-- Chain and boundary facts for the concatenated child traversals, backward
direction: each element is the backward step of its successor. -/
theorem bwd_chain_join (prune : Bool) (n : Nat) (t : MTree) :
    ∀ (cs : List MTree) (i : Nat),
      (∀ k c, cs.get? k = some c → (childrenList t).get? (i + k) = some c) →
      (∀ c ∈ cs,
        List.Chain' (fun a b => bwdDoNext n prune c b = some a) (preorder n prune c) ∧
          (preorder n prune c).getLast? = some (lastDescRel prune n c)) →
      List.Chain' (fun a b => bwdDoNext n prune t b = some a)
          (joinIndexed (cs.map (preorder n prune)) i) ∧
        (cs ≠ [] → (joinIndexed (cs.map (preorder n prune)) i).head? = some [i]) ∧
        (∀ lc, cs.getLast? = some lc →
          (joinIndexed (cs.map (preorder n prune)) i).getLast? =
            some ((i + cs.length - 1) :: lastDescRel prune n lc)) := by
  intro cs
  induction cs with
  | nil =>
    intro i _ _
    refine ⟨by simp [joinIndexed], by simp, ?_⟩
    intro lc hlc
    cases hlc
  | cons c cs ih =>
    intro i hget hfacts
    have hc : (childrenList t).get? i = some c := by simpa using hget 0 c rfl
    have hchild := hfacts c (by simp)
    have hA_chain : List.Chain' (fun a b => bwdDoNext n prune t b = some a)
        ((preorder n prune c).map (fun q => i :: q)) := by
      rw [List.chain'_map]
      refine hchild.1.imp ?_
      intro a b hab
      have hb : b ≠ [] := by
        intro hbe
        rw [hbe, bwdDoNext_nil] at hab
        cases hab
      rw [bwdDoNext_lift hc hb, hab]
      rfl
    have hA_head : ((preorder n prune c).map (fun q => i :: q)).head? = some [i] := by
      rw [List.head?_map, preorder_head]
      rfl
    have hA_last : ((preorder n prune c).map (fun q => i :: q)).getLast? =
        some (i :: lastDescRel prune n c) := by
      rw [List.getLast?_map, hchild.2]
      rfl
    have hAne : ((preorder n prune c).map (fun q => i :: q)) ≠ [] := by
      intro hnil
      rw [hnil] at hA_head
      cases hA_head
    rw [List.map_cons, joinIndexed_cons]
    by_cases hcs : cs = []
    · subst hcs
      simp only [List.map_nil, joinIndexed, List.append_nil]
      refine ⟨hA_chain, fun _ => hA_head, ?_⟩
      intro lc hlc
      have : lc = c := by
        simp at hlc
        exact hlc.symm
      subst this
      simpa using hA_last
    · obtain ⟨hB_chain, hB_head, hB_last⟩ :=
        ih (i + 1) (fun k c2 hk => by
          have := hget (k + 1) c2 (by simpa using hk)
          have harith : i + (k + 1) = i + 1 + k := by omega
          rwa [harith] at this)
          (fun c2 hc2 => hfacts c2 (by simp [hc2]))
      have hB_head2 := hB_head hcs
      have hBne : joinIndexed (cs.map (preorder n prune)) (i + 1) ≠ [] := by
        intro hnil
        rw [hnil] at hB_head2
        cases hB_head2
      have hboundary : bwdDoNext n prune t [i + 1] = some (i :: lastDescRel prune n c) := by
        have := bwdDoNext_singleton_pos (i := i + 1)
          (by simpa using hc) (by omega) n prune
        simpa using this
      refine ⟨?_, ?_, ?_⟩
      · rw [List.chain'_append]
        refine ⟨hA_chain, hB_chain, ?_⟩
        intro x hx y hy
        rw [hA_last] at hx
        rw [hB_head2] at hy
        cases hx
        cases hy
        exact hboundary
      · intro _
        rw [List.head?_append_of_ne_nil _ hAne]
        exact hA_head
      · intro lc hlc
        have hlc2 : cs.getLast? = some lc := by
          cases cs with
          | nil => exact absurd rfl hcs
          | cons c2 cs2 => rwa [List.getLast?_cons_cons] at hlc
        rw [List.getLast?_append_of_ne_nil _ hBne, hB_last lc hlc2]
        have harith : i + 1 + cs.length - 1 = i + (c :: cs).length - 1 := by
          simp only [List.length_cons]
          omega
        rw [harith]

/-- The pre-order list of every tree is chained backwards by the backward step,
and its last element is the deepest last child of the root. -/
theorem bwd_master (prune : Bool) :
    ∀ (n : Nat) (t : MTree), depthLe n t = true →
      List.Chain' (fun a b => bwdDoNext n prune t b = some a) (preorder n prune t) ∧
        (preorder n prune t).getLast? = some (lastDescRel prune n t) := by
  intro n
  induction n with
  | zero =>
    intro t hd
    simp [depthLe] at hd
  | succ n ih =>
    intro t hd
    by_cases hh : hasChildrenB prune t = true
    · have hcs : childrenList t ≠ [] := childrenList_ne_nil_of_hasChildren hh
      obtain ⟨hchain, hhead, hlastcl⟩ :=
        bwd_chain_join prune n t (childrenList t) 0
          (fun k c hk => by simpa using hk)
          (fun c hc => ih c (depthLe_child hd hc))
      have hhead2 := hhead hcs
      have hJne : joinIndexed ((childrenList t).map (preorder n prune)) 0 ≠ [] := by
        intro hnil
        rw [hnil] at hhead2
        cases hhead2
      have hpre : preorder (n + 1) prune t =
          [([] : List Nat)] ++ joinIndexed ((childrenList t).map (preorder n prune)) 0 := by
        simp [preorder, hh]
      obtain ⟨lc, hlc⟩ : ∃ lc, (childrenList t).getLast? = some lc :=
        ⟨_, List.getLast?_eq_getLast _ hcs⟩
      rw [hpre]
      constructor
      · have hfullchain : List.Chain' (fun a b => bwdDoNext n prune t b = some a)
            ([([] : List Nat)] ++ joinIndexed ((childrenList t).map (preorder n prune)) 0) := by
          rw [List.chain'_append]
          refine ⟨List.chain'_singleton _, hchain, ?_⟩
          intro x hx y hy
          cases hx
          rw [hhead2] at hy
          cases hy
          exact bwdDoNext_singleton_zero n prune t
        refine hfullchain.imp ?_
        intro a b hab
        rw [bwdDoNext_fuel hd b (Nat.le_succ n) (le_refl n)]
        exact hab
      · rw [List.getLast?_append_of_ne_nil _ hJne, hlastcl lc hlc]
        have hldr : lastDescRel prune (n + 1) t =
            ((childrenList t).length - 1) :: lastDescRel prune n lc := by
          simp [lastDescRel, hh, hlc]
        rw [hldr]
        simp
    · have hpre : preorder (n + 1) prune t = [[]] := by
        simp [preorder, hh]
      have hldr : lastDescRel prune (n + 1) t = [] := by
        simp [lastDescRel, hh]
      rw [hpre, hldr]
      exact ⟨List.chain'_singleton _, rfl⟩

/-!
## Claim C5: backward stepping versus forward stepping
-/

theorem chain'_pair {α : Type} {R : α → α → Prop} {l xs ys : List α} {a b : α}
    (h : List.Chain' R l) (hsplit : l = xs ++ a :: b :: ys) : R a b := by
  subst hsplit
  exact (List.chain'_cons.mp (List.chain'_append.mp h).2.1).1

/-- C5 counterexample.  In `sampleT`, with `pruneCollapsed = true`, a single
forward step from the node `[0, 1]` (the last child inside the collapsed
composite `[0]`) reaches `[1]`, but a single backward step from `[1]` reaches
`[0]`, not `[0, 1]` — both nodes are nodes of the tree and the fuel `3` is
adequate (`depthLe`), so the claimed equivalence fails for nodes hidden inside
collapsed subtrees. -/
theorem backward_step_inverse_counterexample :
    depthLe 3 sampleT = true ∧
      (nodeAt [0, 1] sampleT).isSome = true ∧
      (nodeAt [1] sampleT).isSome = true ∧
      fwdDoNext true sampleT [0, 1] = some [1] ∧
      ¬(fwdDoNext true sampleT [0, 1] = some [1] ↔
          bwdDoNext 3 true sampleT [1] = some [0, 1]) := by
  refine ⟨by decide, by decide, by decide, by decide, ?_⟩
  intro h
  have := h.mp (by decide)
  revert this
  decide

/-- C5 (amended).  Backward iteration is the step-inverse of forward iteration
on the nodes the iterators actually visit: for every fixed `pruneCollapsed`
option and any two nodes `a`, `b` of the pruned pre-order traversal (all nodes
when `pruneCollapsed` is false), a single forward step from `a` reaches `b`
exactly when a single backward step from `b` reaches `a`.  (The unrestricted
statement is refuted by `backward_step_inverse_counterexample`: forward steps
out of a collapsed subtree are not inverted by backward steps.) -/
theorem backward_step_inverse_on_visited (prune : Bool) (n : Nat) (t : MTree)
    (hd : depthLe n t = true) (a b : List Nat)
    (ha : a ∈ preorder n prune t) (hb : b ∈ preorder n prune t) :
    fwdDoNext prune t a = some b ↔ bwdDoNext n prune t b = some a := by
  constructor
  · intro h
    obtain ⟨xs, ys, hsplit⟩ := List.append_of_mem ha
    cases ys with
    | nil =>
      have hnone : fwdDoNext prune t a = none :=
        (fwd_master prune n t hd).2 a (by rw [hsplit]; exact List.getLast?_concat _)
      rw [hnone] at h
      cases h
    | cons q ys2 =>
      have hq : fwdDoNext prune t a = some q :=
        chain'_pair (R := fun x y => fwdDoNext prune t x = some y)
          (fwd_master prune n t hd).1 hsplit
      rw [h] at hq
      injection hq with hbq
      subst hbq
      exact chain'_pair (R := fun x y => bwdDoNext n prune t y = some x)
        (bwd_master prune n t hd).1 hsplit
  · intro h
    obtain ⟨xs, ys, hsplit⟩ := List.append_of_mem hb
    rcases List.eq_nil_or_concat xs with hxs | ⟨L, a2, hxs⟩
    · subst hxs
      have hbnil : b = [] := by
        have hh := preorder_head n prune t
        rw [hsplit] at hh
        simp at hh
        exact hh
      rw [hbnil, bwdDoNext_nil] at h
      cases h
    · subst hxs
      have hsplit2 : preorder n prune t = L ++ a2 :: b :: ys := by
        rw [hsplit, List.concat_eq_append]
        simp
      have ha2 : bwdDoNext n prune t b = some a2 :=
        chain'_pair (R := fun x y => bwdDoNext n prune t y = some x)
          (bwd_master prune n t hd).1 hsplit2
      rw [h] at ha2
      injection ha2 with haa
      subst haa
      exact chain'_pair (R := fun x y => fwdDoNext prune t x = some y)
        (fwd_master prune n t hd).1 hsplit2

theorem backward_step_inverse_on_visited_witness :
    fwdDoNext true sampleT [0] = some [1] ↔ bwdDoNext 3 true sampleT [1] = some [0] :=
  backward_step_inverse_on_visited true 3 sampleT (by decide) [0] [1] (by decide) (by decide)

/-!
## Claim C7: termination of iteration
-/

theorem lex_append_cons (p : List Nat) (x : Nat) (l : List Nat) :
    List.Lex (fun a b => a < b) p (p ++ x :: l) := by
  induction p with
  | nil => exact List.Lex.nil
  | cons h p ih => exact List.Lex.cons ih

theorem lex_shared_front (a : List Nat) {l1 l2 : List Nat}
    (h : List.Lex (fun x y => x < y) l1 l2) :
    List.Lex (fun x y => x < y) (a ++ l1) (a ++ l2) := by
  induction a with
  | nil => exact h
  | cons x a ih => exact List.Lex.cons ih

theorem lex_irrefl : ∀ (l : List Nat), ¬List.Lex (fun a b => a < b) l l := by
  intro l h
  induction l with
  | nil => cases h
  | cons x xs ih =>
    cases h with
    | cons h2 => exact ih h2
    | rel hr => exact absurd hr (lt_irrefl x)

theorem lex_asymm : ∀ {l1 l2 : List Nat},
    List.Lex (fun a b => a < b) l1 l2 → ¬List.Lex (fun a b => a < b) l2 l1 := by
  intro l1 l2 h
  induction h with
  | nil => intro h2; cases h2
  | cons h ih =>
    intro h2
    cases h2 with
    | cons h3 => exact ih h3
    | rel hr => exact absurd hr (lt_irrefl _)
  | rel hr =>
    intro h2
    cases h2 with
    | cons h3 => exact absurd hr (lt_irrefl _)
    | rel hr2 => omega

theorem joinIndexed_mem_shape {parts : List (List (List Nat))} {i : Nat} {q : List Nat}
    (hq : q ∈ joinIndexed parts i) : ∃ m p2, i ≤ m ∧ q = m :: p2 := by
  obtain ⟨k, part, p, _, _, rfl⟩ := joinIndexed_mem.mp hq
  exact ⟨i + k, p, by omega, rfl⟩

theorem preorder_pairwise_lex (prune : Bool) :
    ∀ (n : Nat) (t : MTree),
      List.Pairwise (fun a b => List.Lex (fun x y => x < y) a b) (preorder n prune t) := by
  intro n
  induction n with
  | zero => intro t; simp [preorder]
  | succ n ih =>
    intro t
    have hjoin : ∀ (cs : List MTree) (i : Nat),
        List.Pairwise (fun a b => List.Lex (fun x y => x < y) a b)
          (joinIndexed (cs.map (preorder n prune)) i) := by
      intro cs
      induction cs with
      | nil => intro i; simp [joinIndexed]
      | cons c cs ihcs =>
        intro i
        rw [List.map_cons, joinIndexed_cons, List.pairwise_append]
        refine ⟨?_, ihcs (i + 1), ?_⟩
        · rw [List.pairwise_map]
          exact (ih c).imp (fun hab => List.Lex.cons hab)
        · intro x hx y hy
          obtain ⟨p, _, rfl⟩ := List.mem_map.mp hx
          obtain ⟨m, p2, hm, rfl⟩ := joinIndexed_mem_shape hy
          exact List.Lex.rel (by omega)
    by_cases hh : hasChildrenB prune t = true
    · have hpre : preorder (n + 1) prune t =
          [] :: joinIndexed ((childrenList t).map (preorder n prune)) 0 := by
        simp [preorder, hh]
      rw [hpre, List.pairwise_cons]
      refine ⟨?_, hjoin (childrenList t) 0⟩
      intro q hq
      obtain ⟨m, p2, _, rfl⟩ := joinIndexed_mem_shape hq
      exact List.Lex.nil
    · have hpre : preorder (n + 1) prune t = [[]] := by
        simp [preorder, hh]
      rw [hpre]
      simp

theorem mem_preorder_false_iff :
    ∀ (n : Nat) (t : MTree), depthLe n t = true →
      ∀ p, p ∈ preorder n false t ↔ (nodeAt p t).isSome := by
  intro n
  induction n with
  | zero => intro t hd; simp [depthLe] at hd
  | succ n ih =>
    intro t hd p
    cases p with
    | nil =>
      constructor
      · intro _; simp [nodeAt]
      · intro _
        have : preorder (n + 1) false t =
            [] :: (if hasChildrenB false t = true then
              joinIndexed ((childrenList t).map (preorder n false)) 0 else []) := by
          simp [preorder]
        rw [this]
        exact List.mem_cons_self _ _
    | cons i p2 =>
      cases hg : (childrenList t).get? i with
      | none =>
        constructor
        · intro hmem
          exfalso
          by_cases hh : hasChildrenB false t = true
          · have hpre : preorder (n + 1) false t =
                [] :: joinIndexed ((childrenList t).map (preorder n false)) 0 := by
              simp [preorder, hh]
            rw [hpre] at hmem
            rcases List.mem_cons.mp hmem with hcontra | hmem2
            · cases hcontra
            · obtain ⟨k, part, p3, hk, _, heq⟩ := joinIndexed_mem.mp hmem2
              have hki : k = i := by
                injection heq with h1 _
                omega
              subst hki
              rw [List.get?_map, hg] at hk
              cases hk
          · have hpre : preorder (n + 1) false t = [[]] := by simp [preorder, hh]
            rw [hpre] at hmem
            simp at hmem
        · intro hval
          exfalso
          rw [nodeAt, hg] at hval
          simp at hval
      | some c =>
        have hcs : childrenList t ≠ [] := by
          intro hnil
          rw [hnil] at hg
          cases hg
        have hcomp : isComposite t = true := by
          unfold isComposite
          unfold childrenList at hcs
          cases hco : t.childrenOpt with
          | none => rw [hco] at hcs; simp at hcs
          | some l => rfl
        have hh : hasChildrenB false t = true := by
          simp [hasChildrenB, hcomp, List.isEmpty_iff, hcs]
        have hpre : preorder (n + 1) false t =
            [] :: joinIndexed ((childrenList t).map (preorder n false)) 0 := by
          simp [preorder, hh]
        have hnode : nodeAt (i :: p2) t = nodeAt p2 c := nodeAt_cons hg p2
        rw [hpre, hnode]
        constructor
        · intro hmem
          rcases List.mem_cons.mp hmem with hcontra | hmem2
          · cases hcontra
          · obtain ⟨k, part, p3, hk, hp3, heq⟩ := joinIndexed_mem.mp hmem2
            injection heq with h1 h2
            have hki : k = i := by omega
            subst hki
            subst h2
            rw [List.get?_map, hg] at hk
            injection hk with hpart
            subst hpart
            exact (ih c (depthLe_child hd (List.get?_mem hg)) p2).mp hp3
        · intro hval
          refine List.mem_cons.mpr (Or.inr ?_)
          refine joinIndexed_mem.mpr ⟨i, preorder n false c, p2, ?_, ?_, by simp⟩
          · rw [List.get?_map, hg]
            rfl
          · exact (ih c (depthLe_child hd (List.get?_mem hg)) p2).mpr hval

theorem getNextSibling_shape {t : MTree} {p q : List Nat}
    (h : getNextSibling t p = some q) :
    ∃ a j, p = a ++ [j] ∧ q = a ++ [j + 1] ∧ (nodeAt q t).isSome := by
  unfold getNextSibling at h
  cases hl : p.getLast? with
  | none => rw [hl] at h; cases h
  | some j =>
    rw [hl] at h
    cases hn : nodeAt p.dropLast t with
    | none => rw [hn] at h; cases h
    | some par =>
      rw [hn] at h
      by_cases hlt : j + 1 < (childrenList par).length
      · simp only [hlt, if_true] at h
        injection h with hq
        obtain ⟨hne, hj⟩ := List.mem_getLast?_eq_getLast (x := j) (by rw [hl]; rfl)
        refine ⟨p.dropLast, j, ?_, hq.symm, ?_⟩
        · rw [hj]
          exact (List.dropLast_append_getLast hne).symm
        · rw [← hq, nodeAt_snoc, hn]
          simp only [Option.some_bind]
          rw [List.get?_eq_get hlt]
          rfl
      · simp [hlt] at h

theorem fnsGo_shape {t : MTree} :
    ∀ (fuel : Nat) (p q : List Nat), fnsGo t fuel p = some q →
      ∃ a j r, p = a ++ j :: r ∧ q = a ++ [j + 1] ∧ (nodeAt q t).isSome := by
  intro fuel
  induction fuel with
  | zero =>
    intro p q h
    cases p with
    | nil => cases h
    | cons x xs => cases h
  | succ fuel ih =>
    intro p q h
    cases p with
    | nil => cases h
    | cons x xs =>
      have hstep : fnsGo t (fuel + 1) (x :: xs) =
          match getNextSibling t (x :: xs) with
          | some q2 => some q2
          | none => fnsGo t fuel (x :: xs).dropLast := rfl
      rw [hstep] at h
      cases hg : getNextSibling t (x :: xs) with
      | some q2 =>
        rw [hg] at h
        injection h with hq
        subst hq
        obtain ⟨a, j, hp, hq2, hval⟩ := getNextSibling_shape hg
        exact ⟨a, j, [], by simpa using hp, hq2, hval⟩
      | none =>
        rw [hg] at h
        obtain ⟨a, j, r, hp, hq2, hval⟩ := ih (x :: xs).dropLast q h
        rcases List.eq_nil_or_concat (x :: xs) with hnil | ⟨L, y, hLy⟩
        · simp at hnil
        · have hdrop : (x :: xs).dropLast = L := by
            rw [hLy, List.concat_eq_append]
            simp
          rw [hdrop] at hp
          refine ⟨a, j, r ++ [y], ?_, hq2, hval⟩
          rw [hLy, List.concat_eq_append, hp]
          simp

theorem fwdDoNext_lex {prune : Bool} {t : MTree} {p q : List Nat}
    (h : fwdDoNext prune t p = some q) :
    List.Lex (fun x y => x < y) p q ∧ (nodeAt q t).isSome := by
  unfold fwdDoNext at h
  cases hf : findFirstChild prune t p with
  | some r =>
    rw [hf] at h
    injection h with hr
    subst hr
    unfold findFirstChild at hf
    cases hn : nodeAt p t with
    | none => rw [hn] at hf; cases hf
    | some nn =>
      rw [hn] at hf
      by_cases hh : hasChildrenB prune nn = true
      · simp only [hh, if_true] at hf
        injection hf with hq
        subst hq
        refine ⟨lex_append_cons p 0 [], ?_⟩
        rw [nodeAt_snoc, hn]
        simp only [Option.some_bind]
        have hlen : 0 < (childrenList nn).length :=
          List.length_pos.mpr (childrenList_ne_nil_of_hasChildren hh)
        rw [List.get?_eq_get hlen]
        rfl
      · simp [hh] at hf
  | none =>
    rw [hf] at h
    obtain ⟨a, j, r, hp, hq, hval⟩ := fnsGo_shape p.length p q h
    subst hp
    subst hq
    exact ⟨lex_shared_front a (List.Lex.rel (by omega)), hval⟩

theorem lastDescRel_valid (prune : Bool) :
    ∀ (fu : Nat) (s : MTree), (nodeAt (lastDescRel prune fu s) s).isSome := by
  intro fu
  induction fu with
  | zero => intro s; simp [lastDescRel, nodeAt]
  | succ fu ih =>
    intro s
    show (nodeAt (lastDescRel prune (fu + 1) s) s).isSome
    simp only [lastDescRel]
    by_cases hh : hasChildrenB prune s = true
    · simp only [hh, if_true]
      cases hl : (childrenList s).getLast? with
      | none => simp [nodeAt]
      | some c2 =>
        have hne : childrenList s ≠ [] := by
          intro hnil
          rw [hnil] at hl
          cases hl
        have hlen : (childrenList s).length - 1 < (childrenList s).length := by
          have := List.length_pos.mpr hne
          omega
        have hget : (childrenList s).get? ((childrenList s).length - 1) = some c2 := by
          rw [List.get?_eq_get hlen]
          rw [List.getLast?_eq_getLast _ hne] at hl
          injection hl with hl2
          rw [← hl2]
          congr 1
          exact (List.getLast_eq_get _ _).symm
        show (nodeAt (((childrenList s).length - 1) :: lastDescRel prune fu c2) s).isSome
        rw [nodeAt_cons hget]
        exact ih c2
    · simp [hh, nodeAt]

theorem bwdDoNext_lex {fu : Nat} {prune : Bool} {t : MTree} {p q : List Nat}
    (hq : (nodeAt q t).isSome) (h : bwdDoNext fu prune t q = some p) :
    List.Lex (fun x y => x < y) p q ∧ (nodeAt p t).isSome := by
  unfold bwdDoNext at h
  cases hg : getPrevSibling t q with
  | none =>
    rw [hg] at h
    simp only [findLastChildFrom] at h
    cases hq2 : q with
    | nil => rw [hq2] at h; cases h
    | cons y ys =>
      rw [hq2] at h
      simp only [parentOf] at h
      injection h with hp
      subst hp
      obtain ⟨hne, hlast⟩ : (y :: ys) ≠ [] ∧
          (y :: ys) = (y :: ys).dropLast ++ [(y :: ys).getLast (by simp)] :=
        ⟨by simp, (List.dropLast_append_getLast _).symm⟩
      constructor
      · conv_rhs => rw [hlast]
        exact lex_append_cons _ _ []
      · rw [hq2, hlast, nodeAt_append] at hq
        cases hd : nodeAt (y :: ys).dropLast t with
        | none => rw [hd] at hq; simp at hq
        | some s => simp [hd]
  | some ps =>
    rw [hg] at h
    unfold getPrevSibling at hg
    cases hl : q.getLast? with
    | none => rw [hl] at hg; cases hg
    | some j =>
      rw [hl] at hg
      cases hn : nodeAt q.dropLast t with
      | none => rw [hn] at hg; cases hg
      | some par =>
        rw [hn] at hg
        by_cases hz : j = 0
        · simp [hz] at hg
        · simp only [hz, if_false] at hg
          injection hg with hps
          subst hps
          obtain ⟨hne, hlast⟩ := List.mem_getLast?_eq_getLast (x := j) (by rw [hl]; rfl)
          have hqeq : q = q.dropLast ++ [j] := by
            rw [hlast]
            exact (List.dropLast_append_getLast hne).symm
          have hjlen : j < (childrenList par).length := by
            rw [hqeq, nodeAt_snoc, hn] at hq
            simp only [Option.some_bind] at hq
            cases hgj : (childrenList par).get? j with
            | none => rw [hgj] at hq; simp at hq
            | some s =>
              have := List.get?_eq_some.mp hgj
              exact this.1
          have hvalps : nodeAt (q.dropLast ++ [j - 1]) t =
              (childrenList par).get? (j - 1) := by
            rw [nodeAt_snoc, hn]
            rfl
          obtain ⟨s, hs⟩ : ∃ s, (childrenList par).get? (j - 1) = some s := by
            have hlt : j - 1 < (childrenList par).length := by omega
            exact ⟨_, List.get?_eq_get hlt⟩
          simp only [findLastChildFrom] at h
          rw [hvalps, hs] at h
          injection h with hp
          subst hp
          constructor
          · conv_rhs => rw [hqeq]
            rw [List.append_assoc]
            exact lex_shared_front q.dropLast (List.Lex.rel (by omega))
          · rw [nodeAt_append, hvalps, hs]
            simp only [Option.some_bind]
            exact lastDescRel_valid prune fu s


theorem posIn_lt_length {l : List (List Nat)} {x : List Nat} (h : x ∈ l) :
    posIn l x < l.length := by
  induction l with
  | nil => cases h
  | cons y l ih =>
    by_cases hxy : y = x
    · simp [posIn, hxy]
    · have hx : x ∈ l := by
        rcases List.mem_cons.mp h with h1 | h1
        · exact absurd h1.symm hxy
        · exact h1
      simp only [posIn, hxy, if_false, List.length_cons]
      have := ih hx
      omega

theorem get?_posIn {l : List (List Nat)} {x : List Nat} (h : x ∈ l) :
    l.get? (posIn l x) = some x := by
  induction l with
  | nil => cases h
  | cons y l ih =>
    by_cases hxy : y = x
    · simp [posIn, hxy]
    · have hx : x ∈ l := by
        rcases List.mem_cons.mp h with h1 | h1
        · exact absurd h1.symm hxy
        · exact h1
      simp only [posIn, hxy, if_false]
      exact ih hx

theorem posIn_lt_of_lex {l : List (List Nat)}
    (hpw : List.Pairwise (fun a b => List.Lex (fun x y => x < y) a b) l)
    {a b : List Nat} (ha : a ∈ l) (hb : b ∈ l)
    (hab : List.Lex (fun x y => x < y) a b) :
    posIn l a < posIn l b := by
  by_contra hle
  push_neg at hle
  have hia : posIn l a < l.length := posIn_lt_length ha
  have hib : posIn l b < l.length := posIn_lt_length hb
  have hgeta : l.get ⟨posIn l a, hia⟩ = a := by
    have h1 := List.get?_eq_get hia
    rw [get?_posIn ha] at h1
    injection h1 with h2
    exact h2.symm
  have hgetb : l.get ⟨posIn l b, hib⟩ = b := by
    have h1 := List.get?_eq_get hib
    rw [get?_posIn hb] at h1
    injection h1 with h2
    exact h2.symm
  rcases Nat.lt_or_ge (posIn l b) (posIn l a) with hlt | hge
  · have hba : List.Lex (fun x y => x < y) b a := by
      have := List.pairwise_iff_get.mp hpw ⟨posIn l b, hib⟩ ⟨posIn l a, hia⟩ hlt
      rwa [hgeta, hgetb] at this
    exact lex_asymm hab hba
  · have heq : posIn l a = posIn l b := by omega
    have hco : a = b := by
      rw [← hgeta, ← hgetb]
      congr 1
      exact Fin.ext heq
    subst hco
    exact lex_irrefl a hab

theorem iterate_bind_none {f : List Nat → Option (List Nat)} :
    ∀ (k : Nat), (fun s => Option.bind s f)^[k] none = none := by
  intro k
  induction k with
  | zero => rfl
  | succ k ih => rw [Function.iterate_succ_apply]; exact ih

/-- If every step of `f` strictly increases a measure bounded by `L` on the
states satisfying `P`, then from any `P`-state the `L`-fold iteration of the
stepper has exhausted the stream. -/
theorem iterate_progress_none {f : List Nat → Option (List Nat)}
    {P : List Nat → Prop} {g : List Nat → Nat} {L : Nat}
    (hstep : ∀ p q, P p → f p = some q → P q ∧ g p < g q)
    (hbound : ∀ p, P p → g p < L) :
    ∀ (p : List Nat), P p → (fun s => Option.bind s f)^[L] (some p) = none := by
  have aux : ∀ (k : Nat) (p q : List Nat), P p →
      (fun s => Option.bind s f)^[k] (some p) = some q → P q ∧ g p + k ≤ g q := by
    intro k
    induction k with
    | zero =>
      intro p q hP h
      simp only [Function.iterate_zero, id] at h
      injection h with h2
      subst h2
      exact ⟨hP, by omega⟩
    | succ k ih =>
      intro p q hP h
      rw [Function.iterate_succ_apply] at h
      have hbind : Option.bind (some p) f = f p := rfl
      rw [hbind] at h
      cases hf : f p with
      | none =>
        rw [hf, iterate_bind_none] at h
        cases h
      | some r =>
        rw [hf] at h
        obtain ⟨hPr, hm⟩ := hstep p r hP hf
        obtain ⟨hPq, hq⟩ := ih r q hPr h
        exact ⟨hPq, by omega⟩
  intro p hP
  cases hiter : (fun s => Option.bind s f)^[L] (some p) with
  | none => rfl
  | some q =>
    obtain ⟨hPq, hq⟩ := aux L p q hP hiter
    have h1 := hbound q hPq
    have h2 := hbound p hP
    omega

/-- C7.  Iteration terminates: on a finite tree (any `n` with `depthLe n t`),
from any node of the tree and for either `pruneCollapsed` option, iterating the
forward or the backward `doNext` reaches `none` — after which `next()` reports
`done` forever — within `(preorder n false t).length` steps (the number of
nodes of the tree).  In this embedding the helper recursions are total by
construction: `findNextSibling` ascends at most `p.length` parents and
`findLastChild` descends at most `depthLe`-many last children. -/
theorem iteration_terminates (prune : Bool) (n : Nat) (t : MTree) (p : List Nat)
    (hd : depthLe n t = true) (hp : (nodeAt p t).isSome) :
    (fun s => Option.bind s (fwdDoNext prune t))^[(preorder n false t).length]
        (some p) = none ∧
      (fun s => Option.bind s (bwdDoNext n prune t))^[(preorder n false t).length]
        (some p) = none := by
  have hpw := preorder_pairwise_lex false n t
  have hmem := mem_preorder_false_iff n t hd
  have hpos : 0 < (preorder n false t).length :=
    List.length_pos.mpr (preorder_ne_nil n false t)
  constructor
  · refine iterate_progress_none (P := fun x => (nodeAt x t).isSome = true)
      (g := fun x => posIn (preorder n false t) x) ?_ ?_ p hp
    · intro x q hx hf
      obtain ⟨hlex, hq⟩ := fwdDoNext_lex hf
      exact ⟨hq, posIn_lt_of_lex hpw ((hmem x).mpr hx) ((hmem q).mpr hq) hlex⟩
    · intro x hx
      exact posIn_lt_length ((hmem x).mpr hx)
  · refine iterate_progress_none (P := fun x => (nodeAt x t).isSome = true)
      (g := fun x =>
        (preorder n false t).length - 1 - posIn (preorder n false t) x) ?_ ?_ p hp
    · intro x q hx hf
      obtain ⟨hlex, hq⟩ := bwdDoNext_lex hx hf
      have hidx := posIn_lt_of_lex hpw ((hmem q).mpr hq) ((hmem x).mpr hx) hlex
      have hxlen := posIn_lt_length ((hmem x).mpr hx)
      refine ⟨hq, ?_⟩
      show (preorder n false t).length - 1 - posIn (preorder n false t) x <
        (preorder n false t).length - 1 - posIn (preorder n false t) q
      omega
    · intro x hx
      show (preorder n false t).length - 1 - posIn (preorder n false t) x <
        (preorder n false t).length
      omega

theorem iteration_terminates_witness :
    (fun s => Option.bind s (fwdDoNext true sampleT))^[5] (some [0]) = none ∧
      (fun s => Option.bind s (bwdDoNext 3 true sampleT))^[5] (some [0]) = none :=
  iteration_terminates true 3 sampleT [0] (by decide) (by decide)

/-!
## Selection service: flags, the selection invariant (C3), recency (C1),
## no-op selection (C8) and unselection events (C9)
-/

theorem storeGet_setSelected_other {s : List RawNode} {r x : Nat} {b : Bool}
    (h : x ≠ r) : storeGet (setSelected s r b) x = storeGet s x := by
  unfold setSelected
  cases storeGet s r with
  | none => rfl
  | some n =>
    show (s.set r _).get? x = s.get? x
    exact List.get?_set_ne _ _ (fun he => h he.symm)

theorem selectedFlag_set_false_self (s : List RawNode) (x : Nat) :
    selectedFlag (setSelected s x false) x = false := by
  unfold setSelected
  cases hx : storeGet s x with
  | none => simp [selectedFlag, hx]
  | some n =>
    have hlt : x < s.length := by
      by_contra hge
      push_neg at hge
      have : s.get? x = none := List.get?_eq_none.mpr hge
      rw [show storeGet s x = s.get? x from rfl, this] at hx
      cases hx
    have hset : (s.set x { n with selected := some false })[x]? =
        some { n with selected := some false } := by
      rw [← List.get?_eq_getElem?]
      exact List.get?_set_eq_of_lt _ hlt
    simp [selectedFlag, storeGet, hset]

theorem selectedFlag_set_true_self {s : List RawNode} {x : Nat}
    (h : (storeGet s x).isSome) :
    selectedFlag (setSelected s x true) x = true := by
  unfold setSelected
  cases hx : storeGet s x with
  | none => rw [hx] at h; cases h
  | some n =>
    have hlt : x < s.length := by
      by_contra hge
      push_neg at hge
      have : s.get? x = none := List.get?_eq_none.mpr hge
      rw [show storeGet s x = s.get? x from rfl, this] at hx
      cases hx
    have hset : (s.set x { n with selected := some true })[x]? =
        some { n with selected := some true } := by
      rw [← List.get?_eq_getElem?]
      exact List.get?_set_eq_of_lt _ hlt
    simp [selectedFlag, storeGet, hset]

theorem selectedFlag_set_other {s : List RawNode} {x r : Nat} {b : Bool}
    (h : r ≠ x) : selectedFlag (setSelected s x b) r = selectedFlag s r := by
  unfold selectedFlag
  rw [storeGet_setSelected_other h]

theorem isSelectableRef_set_other {s : List RawNode} {x r : Nat} {b : Bool}
    (h : r ≠ x) : isSelectableRef (setSelected s x b) r = isSelectableRef s r := by
  unfold isSelectableRef
  rw [storeGet_setSelected_other h]

theorem isSelectableRef_setSelected_of {s : List RawNode} {x : Nat} {b : Bool} {r : Nat}
    (h : isSelectableRef s r = true) : isSelectableRef (setSelected s x b) r = true := by
  by_cases hrx : r = x
  · subst hrx
    unfold isSelectableRef at h ⊢
    cases hx : storeGet s r with
    | none => rw [hx] at h; cases h
    | some n =>
      have hlt : r < s.length := by
        by_contra hge
        push_neg at hge
        have : s.get? r = none := List.get?_eq_none.mpr hge
        rw [show storeGet s r = s.get? r from rfl, this] at hx
        cases hx
      unfold setSelected
      rw [hx]
      have hset : (s.set r { n with selected := some b })[r]? =
          some { n with selected := some b } := by
        rw [← List.get?_eq_getElem?]
        exact List.get?_set_eq_of_lt _ hlt
      simp [storeGet, hset]
  · rw [isSelectableRef_set_other hrx]
    exact h

theorem selectedFlag_clearFlags :
    ∀ (l : List Nat) (s : List RawNode) (r : Nat),
      selectedFlag (clearFlags s l) r = if r ∈ l then false else selectedFlag s r := by
  intro l
  induction l with
  | nil => intro s r; simp [clearFlags]
  | cons x rs ih =>
    intro s r
    show selectedFlag (clearFlags (setSelected s x false) rs) r = _
    rw [ih]
    by_cases hrs : r ∈ rs
    · simp [hrs]
    · by_cases hrx : r = x
      · subst hrx
        simp [hrs, selectedFlag_set_false_self]
      · rw [selectedFlag_set_other hrx]
        have : (r ∈ x :: rs) = False := by
          simp [hrx, hrs]
        simp [hrs, hrx]

theorem isSelectableRef_clearFlags :
    ∀ (l : List Nat) (s : List RawNode) (r : Nat),
      isSelectableRef s r = true → isSelectableRef (clearFlags s l) r = true := by
  intro l
  induction l with
  | nil => intro s r h; exact h
  | cons x rs ih =>
    intro s r h
    exact ih _ _ (isSelectableRef_setSelected_of h)

theorem isSelectableRef_present {s : List RawNode} {r : Nat}
    (h : isSelectableRef s r = true) : (storeGet s r).isSome := by
  unfold isSelectableRef at h
  cases hx : storeGet s r with
  | none => rw [hx] at h; cases h
  | some n => simp

/-- Invariant for the state reached by putting `node` at the front: the flags
of `store` witness the old list `l`, and `w` is a duplicate-free list holding
exactly the old elements other than `node`. -/
theorem selInv_front {store : List RawNode} {node : Nat} {l w : List Nat}
    (hpresent : (storeGet store node).isSome)
    (hflag : ∀ r, selectedFlag store r = true ↔ r ∈ l)
    (hl2 : ∀ r, r ∈ w ↔ r ≠ node ∧ r ∈ l) (hnd2 : w.Nodup) :
    SelInv ⟨setSelected store node true, node :: w⟩ := by
  constructor
  · intro r
    by_cases hrn : r = node
    · subst hrn
      rw [selectedFlag_set_true_self hpresent]
      simp
    · rw [selectedFlag_set_other hrn, hflag r]
      constructor
      · intro hr
        exact List.mem_cons.mpr (Or.inr ((hl2 r).mpr ⟨hrn, hr⟩))
      · intro hr
        rcases List.mem_cons.mp hr with h1 | h1
        · exact absurd h1 hrn
        · exact ((hl2 r).mp h1).2
  · refine List.nodup_cons.mpr ⟨?_, hnd2⟩
    intro hmem
    exact absurd rfl ((hl2 node).mp hmem).1

theorem selInv_doSelectNode {st : SelState} {node : Nat} {props : Option SelectionType}
    (hinv : SelInv st) (hsel : isSelectableRef st.store node = true) :
    SelInv (doSelectNode st node props).1 := by
  obtain ⟨hflag, hnodup⟩ := hinv
  have hpresent : (storeGet st.store node).isSome := isSelectableRef_present hsel
  unfold doSelectNode
  by_cases hempty : st.selectedNodes = []
  · rw [if_pos hempty]
    refine selInv_front (l := []) (w := []) hpresent
      (fun r => by rw [hflag r, hempty]) (fun r => by simp) (by simp)
  · rw [if_neg hempty]
    by_cases hm : isMulti props = true
    · rw [if_pos hm]
      by_cases hmem : node ∈ st.selectedNodes
      · rw [if_pos hmem]
        by_cases hlen : st.selectedNodes.length ≠ 1
        · rw [if_pos hlen]
          exact selInv_front hpresent hflag
            (fun r => hnodup.mem_erase_iff) (hnodup.erase node)
        · rw [if_neg hlen]
          exact ⟨hflag, hnodup⟩
      · rw [if_neg hmem]
        refine selInv_front hpresent hflag (fun r => ?_) hnodup
        constructor
        · intro hr
          refine ⟨?_, hr⟩
          intro hrn
          subst hrn
          exact hmem hr
        · intro hr
          exact hr.2
    · rw [if_neg hm]
      by_cases hcond : st.selectedNodes.length ≠ 1 ∨ node ∉ st.selectedNodes
      · rw [if_pos hcond]
        have hpres2 : (storeGet (clearSelections st).store node).isSome :=
          isSelectableRef_present
            (by
              show isSelectableRef (clearFlags st.store st.selectedNodes) node = true
              exact isSelectableRef_clearFlags _ _ _ hsel)
        refine selInv_front (l := []) (w := []) hpres2 (fun r => ?_)
          (fun r => by simp) (by simp)
        show selectedFlag (clearFlags st.store st.selectedNodes) r = true ↔ r ∈ ([] : List Nat)
        rw [selectedFlag_clearFlags]
        by_cases hr : r ∈ st.selectedNodes
        · simp [hr]
        · simp only [hr, if_false]
          rw [hflag r]
          simp [hr]
      · rw [if_neg hcond]
        exact ⟨hflag, hnodup⟩

theorem selInv_doUnselectNode {st : SelState} (hinv : SelInv st) :
    ∀ (ro : Option Nat), SelInv (doUnselectNode st ro).1 := by
  obtain ⟨hflag, hnodup⟩ := hinv
  intro ro
  cases ro with
  | none =>
    refine ⟨fun r => ?_, List.nodup_nil⟩
    show selectedFlag (clearFlags st.store st.selectedNodes) r = true ↔ r ∈ ([] : List Nat)
    rw [selectedFlag_clearFlags]
    by_cases hr : r ∈ st.selectedNodes
    · simp [hr]
    · simp only [hr, if_false]
      rw [hflag r]
      simp [hr]
  | some node =>
    have heq : doUnselectNode st (some node) =
        if node ∈ st.selectedNodes then
          (⟨setSelected st.store node false, st.selectedNodes.erase node⟩,
            [st.selectedNodes.erase node])
        else (st, []) := rfl
    rw [heq]
    by_cases hmem : node ∈ st.selectedNodes
    · rw [if_pos hmem]
      refine ⟨fun r => ?_, hnodup.erase node⟩
      by_cases hrn : r = node
      · subst hrn
        rw [selectedFlag_set_false_self]
        constructor
        · intro h; cases h
        · intro h
          exact absurd h (hnodup.not_mem_erase)
      · rw [selectedFlag_set_other hrn, hflag r, hnodup.mem_erase_iff]
        simp [hrn]
    · rw [if_neg hmem]
      exact ⟨hflag, hnodup⟩

theorem selInv_applyOp (v : Nat → Option Nat) {st : SelState} (op : SelOp)
    (hinv : SelInv st) : SelInv (applyOp v st op).1 := by
  cases op with
  | select raw props =>
    show SelInv (selectNode v st raw props).1
    unfold selectNode
    cases hv : v raw with
    | none => exact hinv
    | some node =>
      show SelInv ((if isSelectableRef st.store node = true then
        doSelectNode st node props else (st, [])).1)
      by_cases hs : isSelectableRef st.store node = true
      · rw [if_pos hs]
        exact selInv_doSelectNode hinv hs
      · rw [if_neg hs]
        exact hinv
  | unselect ro =>
    cases ro with
    | none => exact selInv_doUnselectNode hinv none
    | some raw =>
      have heq : unselectNode v st (some raw) =
          match v raw with
          | some node =>
            if isSelectableRef st.store node = true then doUnselectNode st (some node)
            else (st, [])
          | none => (st, []) := rfl
      show SelInv (unselectNode v st (some raw)).1
      rw [heq]
      cases hv : v raw with
      | none => exact hinv
      | some node =>
        show SelInv ((if isSelectableRef st.store node = true then
          doUnselectNode st (some node) else (st, [])).1)
        by_cases hs : isSelectableRef st.store node = true
        · rw [if_pos hs]
          exact selInv_doUnselectNode hinv (some node)
        · rw [if_neg hs]
          exact hinv

theorem selInv_applyOps (v : Nat → Option Nat) :
    ∀ (ops : List SelOp) (st : SelState), SelInv st → SelInv (applyOps v st ops) := by
  intro ops
  induction ops with
  | nil => intro st h; exact h
  | cons op ops ih =>
    intro st h
    exact ih _ (selInv_applyOp v op h)

/-- C3.  At most one selection set is active: starting from a store with no
selected flag set, after every sequence of `selectNode` / `unselectNode`
operations a node's `selected` flag reads `true` exactly when the node is in
`_selectedNodes`, the list has no duplicates, and any further operation that
drops a node from the selection (replacing it or clearing it) leaves that
node's flag `false`. -/
theorem selection_invariant (v : Nat → Option Nat) (s0 : List RawNode)
    (h0 : ∀ r, selectedFlag s0 r = false) (ops : List SelOp) :
    SelInv (applyOps v ⟨s0, []⟩ ops) ∧
      ∀ (op : SelOp) (r : Nat), r ∈ (applyOps v ⟨s0, []⟩ ops).selectedNodes →
        r ∉ (applyOp v (applyOps v ⟨s0, []⟩ ops) op).1.selectedNodes →
        selectedFlag (applyOp v (applyOps v ⟨s0, []⟩ ops) op).1.store r = false := by
  have h0inv : SelInv ⟨s0, []⟩ := ⟨fun r => by simp [h0 r], List.nodup_nil⟩
  have hinv := selInv_applyOps v ops _ h0inv
  refine ⟨hinv, ?_⟩
  intro op r _ hnot
  have hinv2 := selInv_applyOp v op hinv
  cases hflag : selectedFlag (applyOp v (applyOps v ⟨s0, []⟩ ops) op).1.store r with
  | false => rfl
  | true => exact absurd ((hinv2.1 r).mp hflag) hnot

theorem selTestStore_flags_false : ∀ r, selectedFlag selTestStore r = false := by
  intro r
  rcases r with _ | (_ | (_ | r))
  · rfl
  · rfl
  · rfl
  · show selectedFlag selTestStore (r + 3) = false
    have hnone : storeGet selTestStore (r + 3) = none := by
      show List.get? _ _ = none
      apply List.get?_eq_none.mpr
      show (selTestStore).length ≤ r + 3
      simp [selTestStore]
    simp [selectedFlag, hnone]

theorem selection_invariant_witness :
    SelInv (applyOps some ⟨selTestStore, []⟩
      [.select 0 (some .multiIndividual), .select 1 (some .multiIndividual),
        .unselect (some 0)]) :=
  (selection_invariant some selTestStore selTestStore_flags_false _).1

theorem ghostStep_st (v : Nat → Option Nat) (g : GhostState) (op : SelOp) :
    (ghostStep v g op).st = (applyOp v g.st op).1 := by
  cases op with
  | select raw props =>
    simp only [ghostStep]
    cases v raw with
    | none => rfl
    | some node => split <;> first | rfl | (split <;> rfl)
  | unselect ro => rfl

theorem recency_front {stamp : Nat → Nat} {k : Nat} {l w : List Nat} {v : Nat}
    (hpw : List.Pairwise (fun a b => stamp b < stamp a) l)
    (hbd : ∀ r ∈ l, stamp r ≤ k)
    (hsub : w.Sublist l) (hnm : v ∉ w) :
    List.Pairwise (fun a b => (if b = v then k + 1 else stamp b) <
        (if a = v then k + 1 else stamp a)) (v :: w) ∧
      ∀ r ∈ v :: w, (if r = v then k + 1 else stamp r) ≤ k + 1 := by
  constructor
  · refine List.pairwise_cons.mpr ⟨?_, ?_⟩
    · intro b hb
      have hbn : b ≠ v := fun he => hnm (he ▸ hb)
      have hble := hbd b (hsub.subset hb)
      rw [if_neg hbn, if_pos rfl]
      omega
    · refine List.Pairwise.imp_of_mem ?_ (hpw.sublist hsub)
      intro a b ha hb hab
      have han : a ≠ v := fun he => hnm (he ▸ ha)
      have hbn : b ≠ v := fun he => hnm (he ▸ hb)
      simp only [han, hbn, if_false]
      exact hab
  · intro r hr
    rcases List.mem_cons.mp hr with h1 | h1
    · subst h1
      simp
    · have hrn : r ≠ v := fun he => hnm (he ▸ h1)
      have := hbd r (hsub.subset h1)
      simp only [hrn, if_false]
      omega

theorem doSelectNode_list (st : SelState) (node : Nat) (props : Option SelectionType) :
    (doSelectNode st node props).1.selectedNodes = [node] ∨
      (doSelectNode st node props).1.selectedNodes = node :: st.selectedNodes.erase node ∨
      ((doSelectNode st node props).1.selectedNodes = node :: st.selectedNodes ∧
        node ∉ st.selectedNodes) := by
  unfold doSelectNode
  by_cases hempty : st.selectedNodes = []
  · rw [if_pos hempty]
    exact Or.inl rfl
  · rw [if_neg hempty]
    by_cases hm : isMulti props = true
    · rw [if_pos hm]
      by_cases hmem : node ∈ st.selectedNodes
      · rw [if_pos hmem]
        by_cases hlen : st.selectedNodes.length ≠ 1
        · rw [if_pos hlen]
          exact Or.inr (Or.inl rfl)
        · rw [if_neg hlen]
          push_neg at hlen
          obtain ⟨a, ha⟩ := List.length_eq_one.mp hlen
          have : node = a := by
            rw [ha] at hmem
            simpa using hmem
          subst this
          exact Or.inl ha
      · rw [if_neg hmem]
        exact Or.inr (Or.inr ⟨rfl, hmem⟩)
    · rw [if_neg hm]
      by_cases hcond : st.selectedNodes.length ≠ 1 ∨ node ∉ st.selectedNodes
      · rw [if_pos hcond]
        exact Or.inl rfl
      · rw [if_neg hcond]
        push_neg at hcond
        obtain ⟨a, ha⟩ := List.length_eq_one.mp hcond.1
        have : node = a := by
          have := hcond.2
          rw [ha] at this
          simpa using this
        subst this
        exact Or.inl ha

theorem unselect_list_sublist (v : Nat → Option Nat) (st : SelState) (ro : Option Nat) :
    ((applyOp v st (.unselect ro)).1.selectedNodes).Sublist st.selectedNodes := by
  cases ro with
  | none => exact List.nil_sublist _
  | some raw =>
    have heq : unselectNode v st (some raw) =
        match v raw with
        | some node =>
          if isSelectableRef st.store node = true then doUnselectNode st (some node)
          else (st, [])
        | none => (st, []) := rfl
    show ((unselectNode v st (some raw)).1.selectedNodes).Sublist st.selectedNodes
    rw [heq]
    cases hv : v raw with
    | none => exact List.Sublist.refl _
    | some node =>
      show (((if isSelectableRef st.store node = true then doUnselectNode st (some node)
        else (st, [])).1.selectedNodes)).Sublist st.selectedNodes
      by_cases hs : isSelectableRef st.store node = true
      · rw [if_pos hs]
        have heq2 : doUnselectNode st (some node) =
            if node ∈ st.selectedNodes then
              (⟨setSelected st.store node false, st.selectedNodes.erase node⟩,
                [st.selectedNodes.erase node])
            else (st, []) := rfl
        rw [heq2]
        by_cases hmem : node ∈ st.selectedNodes
        · rw [if_pos hmem]
          exact List.erase_sublist _ _
        · rw [if_neg hmem]
      · rw [if_neg hs]

theorem recencyInv_ghostStep (v : Nat → Option Nat) (g : GhostState) (op : SelOp)
    (hsel : SelInv g.st) (hrec : RecencyInv g) : RecencyInv (ghostStep v g op) := by
  obtain ⟨hpw, hbd⟩ := hrec
  have hbd2 : ∀ r ∈ g.st.selectedNodes, g.stamp r ≤ g.step + 1 := by
    intro r hr
    have := hbd r hr
    omega
  cases op with
  | unselect ro =>
    have hstep : ghostStep v g (.unselect ro) =
        ⟨(applyOp v g.st (.unselect ro)).1, g.stamp, g.step + 1⟩ := rfl
    rw [hstep]
    have hsub := unselect_list_sublist v g.st ro
    refine ⟨hpw.sublist hsub, ?_⟩
    intro r hr
    exact hbd2 r (hsub.subset hr)
  | select raw props =>
    cases hv : v raw with
    | none =>
      have hstep : ghostStep v g (.select raw props) =
          ⟨(applyOp v g.st (.select raw props)).1, g.stamp, g.step + 1⟩ := by
        simp only [ghostStep, hv]
      have hst : (applyOp v g.st (.select raw props)).1 = g.st := by
        show (selectNode v g.st raw props).1 = g.st
        unfold selectNode
        rw [hv]
      rw [hstep, hst]
      exact ⟨hpw, hbd2⟩
    | some node =>
      by_cases hs : isSelectableRef g.st.store node = true
      · have hstep : ghostStep v g (.select raw props) =
            ⟨(applyOp v g.st (.select raw props)).1,
              fun r => if r = node then g.step + 1 else g.stamp r, g.step + 1⟩ := by
          simp only [ghostStep, hv]
          rw [if_pos hs]
        have hst : (applyOp v g.st (.select raw props)).1 =
            (doSelectNode g.st node props).1 := by
          show (selectNode v g.st raw props).1 = _
          unfold selectNode
          rw [hv]
          show ((if isSelectableRef g.st.store node = true then doSelectNode g.st node props
            else (g.st, [])).1) = _
          rw [if_pos hs]
        rw [hstep, hst]
        rcases doSelectNode_list g.st node props with hlist | hlist | ⟨hlist, hnm⟩
        · refine ⟨?_, ?_⟩
          · show List.Pairwise _ (doSelectNode g.st node props).1.selectedNodes
            rw [hlist]
            have := recency_front (v := node) (w := []) hpw hbd
              (List.nil_sublist _) (by simp)
            exact this.1
          · intro r hr
            rw [hlist] at hr
            have := recency_front (v := node) (w := []) hpw hbd
              (List.nil_sublist _) (by simp)
            exact this.2 r hr
        · have hsub : (g.st.selectedNodes.erase node).Sublist g.st.selectedNodes :=
            List.erase_sublist _ _
          have hnm : node ∉ g.st.selectedNodes.erase node := hsel.2.not_mem_erase
          refine ⟨?_, ?_⟩
          · show List.Pairwise _ (doSelectNode g.st node props).1.selectedNodes
            rw [hlist]
            exact (recency_front hpw hbd hsub hnm).1
          · intro r hr
            rw [hlist] at hr
            exact (recency_front hpw hbd hsub hnm).2 r hr
        · refine ⟨?_, ?_⟩
          · show List.Pairwise _ (doSelectNode g.st node props).1.selectedNodes
            rw [hlist]
            exact (recency_front hpw hbd (List.Sublist.refl _) hnm).1
          · intro r hr
            rw [hlist] at hr
            exact (recency_front hpw hbd (List.Sublist.refl _) hnm).2 r hr
      · have hstep : ghostStep v g (.select raw props) =
            ⟨(applyOp v g.st (.select raw props)).1, g.stamp, g.step + 1⟩ := by
          simp only [ghostStep, hv]
          rw [if_neg hs]
        have hst : (applyOp v g.st (.select raw props)).1 = g.st := by
          show (selectNode v g.st raw props).1 = g.st
          unfold selectNode
          rw [hv]
          show ((if isSelectableRef g.st.store node = true then doSelectNode g.st node props
            else (g.st, [])).1) = g.st
          rw [if_neg hs]
        rw [hstep, hst]
        exact ⟨hpw, hbd2⟩

theorem ghostRun_inv (v : Nat → Option Nat) :
    ∀ (ops : List SelOp) (g : GhostState), SelInv g.st → RecencyInv g →
      SelInv (ghostRun v g ops).st ∧ RecencyInv (ghostRun v g ops) := by
  intro ops
  induction ops with
  | nil => intro g h1 h2; exact ⟨h1, h2⟩
  | cons op ops ih =>
    intro g h1 h2
    have hstep1 : SelInv (ghostStep v g op).st := by
      rw [ghostStep_st]
      exact selInv_applyOp v op h1
    exact ih _ hstep1 (recencyInv_ghostStep v g op h1 h2)

theorem applyOp_select_eq (v : Nat → Option Nat) (st : SelState) (raw node : Nat)
    (props : Option SelectionType) (hv : v raw = some node)
    (hs : isSelectableRef st.store node = true) :
    applyOp v st (.select raw props) = doSelectNode st node props := by
  show selectNode v st raw props = _
  unfold selectNode
  rw [hv]
  show (if isSelectableRef st.store node = true then doSelectNode st node props
    else (st, [])) = _
  rw [if_pos hs]

theorem doSelectNode_head (st : SelState) (node : Nat) (props : Option SelectionType) :
    (doSelectNode st node props).1.selectedNodes.head? = some node := by
  rcases doSelectNode_list st node props with h | h | ⟨h, _⟩ <;> rw [h] <;> rfl

theorem doSelectNode_move (st : SelState) (node : Nat) (props : Option SelectionType)
    (hm : isMulti props = true) (hmem : node ∈ st.selectedNodes)
    (hlen : st.selectedNodes.length ≠ 1) :
    (doSelectNode st node props).1.selectedNodes = node :: st.selectedNodes.erase node := by
  unfold doSelectNode
  have hne : st.selectedNodes ≠ [] := by
    intro h
    rw [h] at hmem
    cases hmem
  rw [if_neg hne, if_pos hm, if_pos hmem, if_pos hlen]

/-- C1.  Inverse-chronological selection order: running any operation sequence
from an unselected store, `_selectedNodes` is strictly descending in the step
at which each node was last selected (most recent first); moreover any further
passing `selectNode` leaves its node at the front of the list, and re-selecting
an already selected node in multi mode while other nodes are selected moves it
to the front without duplicating it. -/
theorem inverse_chronological_order (v : Nat → Option Nat) (s0 : List RawNode)
    (h0 : ∀ r, selectedFlag s0 r = false) (ops : List SelOp) :
    List.Pairwise
        (fun a b => (ghostRun v ⟨⟨s0, []⟩, fun _ => 0, 0⟩ ops).stamp b <
          (ghostRun v ⟨⟨s0, []⟩, fun _ => 0, 0⟩ ops).stamp a)
        (ghostRun v ⟨⟨s0, []⟩, fun _ => 0, 0⟩ ops).st.selectedNodes ∧
      (∀ (raw node : Nat) (props : Option SelectionType), v raw = some node →
        isSelectableRef (ghostRun v ⟨⟨s0, []⟩, fun _ => 0, 0⟩ ops).st.store node = true →
        (applyOp v (ghostRun v ⟨⟨s0, []⟩, fun _ => 0, 0⟩ ops).st
            (.select raw props)).1.selectedNodes.head? = some node) ∧
      (∀ (raw node : Nat) (props : Option SelectionType), v raw = some node →
        isSelectableRef (ghostRun v ⟨⟨s0, []⟩, fun _ => 0, 0⟩ ops).st.store node = true →
        isMulti props = true →
        node ∈ (ghostRun v ⟨⟨s0, []⟩, fun _ => 0, 0⟩ ops).st.selectedNodes →
        (ghostRun v ⟨⟨s0, []⟩, fun _ => 0, 0⟩ ops).st.selectedNodes.length ≠ 1 →
        (applyOp v (ghostRun v ⟨⟨s0, []⟩, fun _ => 0, 0⟩ ops).st
              (.select raw props)).1.selectedNodes =
            node :: (ghostRun v ⟨⟨s0, []⟩, fun _ => 0, 0⟩ ops).st.selectedNodes.erase node ∧
          (applyOp v (ghostRun v ⟨⟨s0, []⟩, fun _ => 0, 0⟩ ops).st
              (.select raw props)).1.selectedNodes.Nodup) := by
  have h0inv : SelInv ⟨s0, []⟩ := ⟨fun r => by simp [h0 r], List.nodup_nil⟩
  have h0rec : RecencyInv ⟨⟨s0, []⟩, fun _ => 0, 0⟩ := by
    constructor
    · simp
    · intro r hr
      simp at hr
  obtain ⟨hselinv, hrec⟩ := ghostRun_inv v ops _ h0inv h0rec
  refine ⟨hrec.1, ?_, ?_⟩
  · intro raw node props hv hs
    rw [applyOp_select_eq v _ raw node props hv hs]
    exact doSelectNode_head _ node props
  · intro raw node props hv hs hm hmem hlen
    rw [applyOp_select_eq v _ raw node props hv hs]
    exact ⟨doSelectNode_move _ node props hm hmem hlen, (selInv_doSelectNode hselinv hs).2⟩

theorem inverse_chronological_order_witness :
    List.Pairwise
        (fun a b =>
          (ghostRun some ⟨⟨selTestStore, []⟩, fun _ => 0, 0⟩
            [.select 0 (some .multiIndividual), .select 1 (some .multiIndividual)]).stamp b <
          (ghostRun some ⟨⟨selTestStore, []⟩, fun _ => 0, 0⟩
            [.select 0 (some .multiIndividual), .select 1 (some .multiIndividual)]).stamp a)
        (ghostRun some ⟨⟨selTestStore, []⟩, fun _ => 0, 0⟩
          [.select 0 (some .multiIndividual), .select 1 (some .multiIndividual)]).st.selectedNodes :=
  (inverse_chronological_order some selTestStore selTestStore_flags_false
    [.select 0 (some .multiIndividual), .select 1 (some .multiIndividual)]).1

theorem select_sole_noop_core (st : SelState) (r : Nat) (props : Option SelectionType)
    (hone : st.selectedNodes = [r]) :
    doSelectNode st r props = (st, []) := by
  unfold doSelectNode
  have hne : st.selectedNodes ≠ [] := by
    rw [hone]
    simp
  have hmem : r ∈ st.selectedNodes := by
    rw [hone]
    simp
  have hlen : ¬st.selectedNodes.length ≠ 1 := by
    rw [hone]
    simp
  rw [if_neg hne]
  by_cases hm : isMulti props = true
  · rw [if_pos hm, if_pos hmem, if_neg hlen]
  · rw [if_neg hm, if_neg (by push_neg; push_neg at hlen; exact ⟨hlen, hmem⟩ :
      ¬(st.selectedNodes.length ≠ 1 ∨ r ∉ st.selectedNodes))]

/-- C8.  Selecting the sole selected node is a no-op for every selection type:
when the valid node `r` is the only selected node, `selectNode` leaves the
state unchanged and fires no event; consequently, starting from an empty
selection, selecting the same node twice yields the same state as selecting it
once. -/
theorem select_sole_selected_noop (v : Nat → Option Nat) (st st0 : SelState) (r : Nat)
    (props : Option SelectionType) (hv : v r = some r)
    (hsel : isSelectableRef st.store r = true) (hone : st.selectedNodes = [r])
    (hsel0 : isSelectableRef st0.store r = true) (hempty : st0.selectedNodes = []) :
    applyOp v st (.select r props) = (st, []) ∧
      (applyOp v (applyOp v st0 (.select r props)).1 (.select r props)).1 =
        (applyOp v st0 (.select r props)).1 := by
  have hmain : ∀ (s : SelState), isSelectableRef s.store r = true → s.selectedNodes = [r] →
      applyOp v s (.select r props) = (s, []) := by
    intro s hs hone2
    rw [applyOp_select_eq v s r r props hv hs]
    exact select_sole_noop_core s r props hone2
  refine ⟨hmain st hsel hone, ?_⟩
  have hst1 : (applyOp v st0 (.select r props)).1 = ⟨setSelected st0.store r true, [r]⟩ := by
    rw [applyOp_select_eq v st0 r r props hv hsel0]
    show (doSelectNode st0 r props).1 = _
    unfold doSelectNode
    rw [if_pos hempty]
  rw [hst1]
  rw [hmain ⟨setSelected st0.store r true, [r]⟩ (isSelectableRef_setSelected_of hsel0) rfl]

theorem select_sole_selected_noop_witness :
    applyOp some (⟨[⟨"A", "A", none, none, none, some true⟩], [0]⟩ : SelState)
        (.select 0 (some .multiRange)) =
      ((⟨[⟨"A", "A", none, none, none, some true⟩], [0]⟩ : SelState), []) ∧
      (applyOp some (applyOp some (⟨selTestStore, []⟩ : SelState)
          (.select 0 (some .multiRange))).1 (.select 0 (some .multiRange))).1 =
        (applyOp some (⟨selTestStore, []⟩ : SelState) (.select 0 (some .multiRange))).1 :=
  select_sole_selected_noop some ⟨[⟨"A", "A", none, none, none, some true⟩], [0]⟩
    ⟨selTestStore, []⟩ 0 (some .multiRange) rfl (by decide) rfl (by decide) rfl

/-- C9.  `unselectNode(undefined)` always clears and always notifies: it
empties the selection, resets the flag of every previously selected node and
fires exactly one `onSelectionChanged` event (with the empty snapshot) even
when the selection was already empty; `unselectNode` with a defined node fires
an event exactly when the validated node is selectable and actually in the
selection. -/
theorem unselect_clear_and_notify (v : Nat → Option Nat) (st : SelState) :
    (applyOp v st (.unselect none)).1.selectedNodes = [] ∧
      (applyOp v st (.unselect none)).2 = [[]] ∧
      (∀ r ∈ st.selectedNodes,
        selectedFlag (applyOp v st (.unselect none)).1.store r = false) ∧
      ∀ raw : Nat, (applyOp v st (.unselect (some raw))).2 ≠ [] ↔
        ∃ node, v raw = some node ∧ isSelectableRef st.store node = true ∧
          node ∈ st.selectedNodes := by
  refine ⟨rfl, rfl, ?_, ?_⟩
  · intro r hr
    show selectedFlag (clearFlags st.store st.selectedNodes) r = false
    rw [selectedFlag_clearFlags]
    simp [hr]
  · intro raw
    have heq : unselectNode v st (some raw) =
        match v raw with
        | some node =>
          if isSelectableRef st.store node = true then doUnselectNode st (some node)
          else (st, [])
        | none => (st, []) := rfl
    show (unselectNode v st (some raw)).2 ≠ [] ↔ _
    rw [heq]
    cases hv : v raw with
    | none =>
      constructor
      · intro h
        exact absurd rfl h
      · rintro ⟨node, hn, _, _⟩
        cases hn
    | some node =>
      show ((if isSelectableRef st.store node = true then doUnselectNode st (some node)
        else (st, [])).2 ≠ []) ↔ _
      by_cases hs : isSelectableRef st.store node = true
      · rw [if_pos hs]
        have heq2 : doUnselectNode st (some node) =
            if node ∈ st.selectedNodes then
              (⟨setSelected st.store node false, st.selectedNodes.erase node⟩,
                [st.selectedNodes.erase node])
            else (st, []) := rfl
        rw [heq2]
        by_cases hmem : node ∈ st.selectedNodes
        · rw [if_pos hmem]
          constructor
          · intro _
            exact ⟨node, rfl, hs, hmem⟩
          · intro _
            simp
        · rw [if_neg hmem]
          constructor
          · intro h
            exact absurd rfl h
          · rintro ⟨node2, hn2, _, hmem2⟩
            have h3 : node2 = node := by
              injection hn2 with h4
              exact h4.symm
            subst h3
            exact absurd hmem2 hmem
      · rw [if_neg hs]
        constructor
        · intro h
          exact absurd rfl h
        · rintro ⟨node2, hn2, hs2, _⟩
          have h3 : node2 = node := by
            injection hn2 with h4
            exact h4.symm
          subst h3
          exact absurd hs2 hs

theorem unselect_clear_and_notify_witness :
    (applyOp some (⟨selTestStore, [1, 0]⟩ : SelState) (.unselect none)).1.selectedNodes = []
      ∧ (applyOp some (⟨selTestStore, [1, 0]⟩ : SelState) (.unselect none)).2 = [[]] :=
  ⟨(unselect_clear_and_notify some ⟨selTestStore, [1, 0]⟩).1,
    (unselect_clear_and_notify some ⟨selTestStore, [1, 0]⟩).2.1⟩

/-!
## View-state round trip (claims C4 and C6)
-/

theorem clearTruthy_ne_true : ∀ (x : Option Bool), clearTruthy x ≠ some true := by
  intro x
  cases x with
  | none => decide
  | some b => cases b <;> decide

theorem deflateChildren_cons (f : Nat → Option SNode) (r : Nat) (rs : List Nat) :
    deflateChildren f (r :: rs) =
      match f r, deflateChildren f rs with
      | some d, some ds => some (d :: ds)
      | _, _ => none := rfl

theorem deflateForStorage_succ (fuel : Nat) (s : List RawNode) (r : Nat) :
    deflateForStorage (fuel + 1) s r =
      match storeGet s r with
      | none => none
      | some n =>
        match n.children with
        | none => some (SNode.mk n.id n.name none n.expanded n.selected)
        | some cs =>
          match deflateChildren (fun c => deflateForStorage fuel s c) cs with
          | some ds => some (SNode.mk n.id n.name (some ds) n.expanded n.selected)
          | none => none := rfl

theorem deflateChildren_mem {f : Nat → Option SNode} :
    ∀ {rs : List Nat} {ds : List SNode}, deflateChildren f rs = some ds →
      ∀ d ∈ ds, ∃ r, f r = some d := by
  intro rs
  induction rs with
  | nil =>
    intro ds h d hd
    cases h
    cases hd
  | cons r rs ih =>
    intro ds h d hd
    cases hf : f r with
    | none =>
      rw [deflateChildren_cons, hf] at h
      cases h
    | some d0 =>
      cases hrest : deflateChildren f rs with
      | none =>
        rw [deflateChildren_cons, hf, hrest] at h
        cases h
      | some ds0 =>
        rw [deflateChildren_cons, hf, hrest] at h
        have h2 : some (d0 :: ds0) = some ds := h
        cases h2
        cases hd with
        | head => exact ⟨r, hf⟩
        | tail _ hmem => exact ih hrest d hmem

theorem deflateChildren_of_pointwise {f : Nat → Option SNode} {g : SNode → SNode} :
    ∀ (cs : List SNode) (rs : List Nat), rs.length = cs.length →
      (∀ k c, cs.get? k = some c → ∃ r, rs.get? k = some r ∧ f r = some (g c)) →
      deflateChildren f rs = some (cs.map g) := by
  intro cs
  induction cs with
  | nil =>
    intro rs hlen _
    have hrs : rs = [] := List.eq_nil_of_length_eq_zero hlen
    subst hrs
    rfl
  | cons c cs ih =>
    intro rs hlen hpt
    cases rs with
    | nil => simp at hlen
    | cons r rs =>
      obtain ⟨r0, hr0, hf0⟩ := hpt 0 c rfl
      have hr : r = r0 := by
        have h2 : some r = some r0 := hr0
        injection h2
      subst hr
      have hrest : deflateChildren f rs = some (cs.map g) := by
        apply ih rs (by simpa using hlen)
        intro k c' hk
        obtain ⟨r', hr', hf'⟩ := hpt (k + 1) c' hk
        exact ⟨r', hr', hf'⟩
      rw [deflateChildren_cons, hf0, hrest]
      rfl

theorem sDepthLe_of_deflate :
    ∀ (fuel : Nat) (s : List RawNode) (r : Nat) (d : SNode),
      deflateForStorage fuel s r = some d → sDepthLe fuel d = true := by
  intro fuel
  induction fuel with
  | zero =>
    intro s r d h
    cases h
  | succ fuel ih =>
    intro s r d h
    rw [deflateForStorage_succ] at h
    cases hg : storeGet s r with
    | none =>
      rw [hg] at h
      cases h
    | some n =>
      rw [hg] at h
      have h3 : (match n.children with
          | none => some (SNode.mk n.id n.name none n.expanded n.selected)
          | some cs =>
            match deflateChildren (fun c => deflateForStorage fuel s c) cs with
            | some ds => some (SNode.mk n.id n.name (some ds) n.expanded n.selected)
            | none => none) = some d := h
      cases hc : n.children with
      | none =>
        rw [hc] at h3
        have h2 : some (SNode.mk n.id n.name none n.expanded n.selected) = some d := h3
        cases h2
        rfl
      | some cs =>
        rw [hc] at h3
        have h4 : (match deflateChildren (fun c => deflateForStorage fuel s c) cs with
            | some ds => some (SNode.mk n.id n.name (some ds) n.expanded n.selected)
            | none => none) = some d := h3
        cases hdc : deflateChildren (fun c => deflateForStorage fuel s c) cs with
        | none =>
          rw [hdc] at h4
          cases h4
        | some ds =>
          rw [hdc] at h4
          have h2 : some (SNode.mk n.id n.name (some ds) n.expanded n.selected) = some d := h4
          cases h2
          show ds.all (fun c => sDepthLe fuel c) = true
          rw [List.all_eq_true]
          intro d' hd'
          obtain ⟨r', hf'⟩ := deflateChildren_mem hdc d' hd'
          exact ih s r' d' hf'

theorem storeGet_append_left {s : List RawNode} {i : Nat} (t : List RawNode)
    (h : i < s.length) : storeGet (s ++ t) i = storeGet s i :=
  List.get?_append h

theorem storeGet_append_self (s : List RawNode) (a : RawNode) :
    storeGet (s ++ [a]) s.length = some a :=
  List.get?_concat_length s a

theorem storeGet_set_ne {s : List RawNode} (a : RawNode) {r j : Nat} (h : r ≠ j) :
    storeGet (s.set r a) j = storeGet s j :=
  List.get?_set_ne a s h

theorem storeGet_set_self {s : List RawNode} (a : RawNode) {r : Nat} (h : r < s.length) :
    storeGet (s.set r a) r = some a :=
  List.get?_set_eq_of_lt a h

theorem storeGet_lt {s : List RawNode} {i : Nat} {nd : RawNode}
    (h : storeGet s i = some nd) : i < s.length := by
  by_contra hlt
  rw [storeGet, List.get?_eq_none.mpr (by omega)] at h
  cases h

theorem inflOut_leaf (fuel : Nat) (i m : String) (e sel : Option Bool)
    (parent : Option Nat) (s0 : List RawNode) :
    InflOut (fuel + 1) (SNode.mk i m none e sel) parent s0
      (s0 ++ [⟨i, m, parent, none, e, clearTruthy sel⟩], s0.length) := by
  refine ⟨rfl, by simp, ?_, ?_, ?_, ?_⟩
  · intro j hj
    exact storeGet_append_left _ hj
  · exact ⟨_, storeGet_append_self s0 _, rfl⟩
  · intro sx hsx
    have hroot : storeGet sx s0.length = some ⟨i, m, parent, none, e, clearTruthy sel⟩ := by
      rw [hsx s0.length le_rfl (by simp)]
      exact storeGet_append_self s0 _
    rw [deflateForStorage_succ, hroot]
    rfl
  · intro j hlo hhi
    have hlen : (s0 ++ [(⟨i, m, parent, none, e, clearTruthy sel⟩ : RawNode)]).length
        = s0.length + 1 := by simp
    have hhi2 : j < (s0 ++ [(⟨i, m, parent, none, e, clearTruthy sel⟩ : RawNode)]).length :=
      hhi
    have hj : j = s0.length := by omega
    subst hj
    refine ⟨⟨i, m, parent, none, e, clearTruthy sel⟩, storeGet_append_self s0 _,
      clearTruthy_ne_true sel, ?_⟩
    intro cs2 c2 hcs _
    cases hcs

theorem inflList_spec (fuel : Nat) (H : InfSpec fuel) :
    ∀ (cs : List SNode), (∀ c ∈ cs, sDepthLe fuel c = true) →
      ∀ (par : Nat) (s0 : List RawNode),
        InflListOut fuel cs par s0
          (allocList (fun c acc => inflateFromStorage fuel c (some par) acc) cs s0) := by
  intro cs
  induction cs with
  | nil =>
    intro _ par s0
    refine ⟨le_rfl, fun j _ => rfl, rfl, ?_, ?_, ?_⟩
    · intro r hr
      cases hr
    · intro k c hk
      cases hk
    · intro j hlo hhi
      exact absurd (show j < s0.length from hhi) (by omega)
  | cons c cs ih =>
    intro hall par s0
    obtain ⟨h1, h2, h3, h4, h5, h6⟩ := H c (hall c (by simp)) (some par) s0
    obtain ⟨g1, g2, g3, g4, g5, g6⟩ :=
      ih (fun c' hc' => hall c' (by simp [hc'])) par
        (inflateFromStorage fuel c (some par) s0).1
    set A := inflateFromStorage fuel c (some par) s0 with hA
    set B := allocList (fun c acc => inflateFromStorage fuel c (some par) acc) cs A.1 with hB
    show InflListOut fuel (c :: cs) par s0 (B.1, A.2 :: B.2)
    refine ⟨?_, ?_, ?_, ?_, ?_, ?_⟩
    · exact le_trans (le_of_lt h2) g1
    · intro j hj
      show storeGet B.1 j = storeGet s0 j
      rw [g2 j (lt_trans hj h2), h3 j hj]
    · show (A.2 :: B.2).length = (c :: cs).length
      simp [g3]
    · intro r hr
      cases hr with
      | head =>
        refine ⟨?_, ?_, ?_⟩
        · rw [h1]
        · show A.2 < B.1.length
          rw [h1]
          exact lt_of_lt_of_le h2 g1
        · show ∃ cn, storeGet B.1 A.2 = some cn ∧ cn.parent = some par
          rw [h1, g2 s0.length h2]
          exact h4
      | tail _ hmem =>
        obtain ⟨k1, k2, k3⟩ := g4 r hmem
        exact ⟨le_trans (le_of_lt h2) k1, k2, k3⟩
    · intro k c' hk
      cases k with
      | zero =>
        have hc' : some c = some c' := hk
        cases hc'
        refine ⟨A.2, rfl, ?_⟩
        intro sx hsx
        have hagree : ∀ j, s0.length ≤ j → j < A.1.length →
            storeGet sx j = storeGet A.1 j := by
          intro j hj1 hj2
          rw [hsx j hj1 (lt_of_lt_of_le hj2 g1), g2 j hj2]
        have hd := h5 sx hagree
        show deflateForStorage fuel sx A.2 = some (clearSelS fuel c)
        rw [h1]
        exact hd
      | succ k =>
        have hk' : cs.get? k = some c' := hk
        obtain ⟨r, hr, hdef⟩ := g5 k c' hk'
        refine ⟨r, ?_, ?_⟩
        · show (A.2 :: B.2).get? (k + 1) = some r
          exact hr
        · intro sx hsx
          exact hdef sx (fun j hj1 hj2 => hsx j (le_trans (le_of_lt h2) hj1) hj2)
    · intro j hlo hhi
      by_cases hj : j < A.1.length
      · obtain ⟨nd, hnd, hsel, hch⟩ := h6 j hlo hj
        refine ⟨nd, ?_, hsel, ?_⟩
        · show storeGet B.1 j = some nd
          rw [g2 j hj]
          exact hnd
        · intro cs2 c2 hcs hc2
          obtain ⟨k1, k2, cn, hcn, hpar⟩ := hch cs2 c2 hcs hc2
          refine ⟨k1, lt_of_lt_of_le k2 g1, cn, ?_, hpar⟩
          show storeGet B.1 c2 = some cn
          rw [g2 c2 k2]
          exact hcn
      · have hj' : A.1.length ≤ j := by omega
        obtain ⟨nd, hnd, hsel, hch⟩ := g6 j hj' hhi
        refine ⟨nd, hnd, hsel, ?_⟩
        intro cs2 c2 hcs hc2
        obtain ⟨k1, k2, cn, hcn, hpar⟩ := hch cs2 c2 hcs hc2
        exact ⟨le_trans (le_of_lt h2) k1, k2, cn, hcn, hpar⟩

theorem inflOut_composite (fuel : Nat) (i m : String) (cs : List SNode)
    (e sel : Option Bool) (parent : Option Nat) (s0 : List RawNode)
    {res : List RawNode × List Nat}
    (L : InflListOut fuel cs s0.length
      (s0 ++ [⟨i, m, parent, some [], e, clearTruthy sel⟩]) res) :
    InflOut (fuel + 1) (SNode.mk i m (some cs) e sel) parent s0
      (res.1.set s0.length ⟨i, m, parent, some res.2, e, clearTruthy sel⟩, s0.length) := by
  obtain ⟨g1, g2, g3, g4, g5, g6⟩ := L
  have hs1 : (s0 ++ [(⟨i, m, parent, some [], e, clearTruthy sel⟩ : RawNode)]).length
      = s0.length + 1 := by simp
  have hr0 : s0.length < res.1.length := by omega
  have hsetlen : (res.1.set s0.length
      (⟨i, m, parent, some res.2, e, clearTruthy sel⟩ : RawNode)).length = res.1.length :=
    List.length_set _ _ _
  have houtlen : s0.length < (res.1.set s0.length
      (⟨i, m, parent, some res.2, e, clearTruthy sel⟩ : RawNode)).length := by
    rw [hsetlen]
    exact hr0
  refine ⟨rfl, houtlen, ?_, ?_, ?_, ?_⟩
  · intro j hj
    show storeGet (res.1.set s0.length ⟨i, m, parent, some res.2, e, clearTruthy sel⟩) j
        = storeGet s0 j
    rw [storeGet_set_ne _ (by omega), g2 j (by omega)]
    exact storeGet_append_left _ hj
  · refine ⟨⟨i, m, parent, some res.2, e, clearTruthy sel⟩, ?_, rfl⟩
    show storeGet (res.1.set s0.length ⟨i, m, parent, some res.2, e, clearTruthy sel⟩)
        s0.length = _
    exact storeGet_set_self _ hr0
  · intro sx hsx
    have hroot : storeGet sx s0.length
        = some ⟨i, m, parent, some res.2, e, clearTruthy sel⟩ := by
      rw [hsx s0.length le_rfl houtlen]
      exact storeGet_set_self _ hr0
    have hagree : ∀ j,
        (s0 ++ [(⟨i, m, parent, some [], e, clearTruthy sel⟩ : RawNode)]).length ≤ j →
        j < res.1.length → storeGet sx j = storeGet res.1 j := by
      intro j hj1 hj2
      rw [hsx j (by omega) (by rw [hsetlen]; exact hj2)]
      show storeGet (res.1.set s0.length ⟨i, m, parent, some res.2, e, clearTruthy sel⟩) j
          = storeGet res.1 j
      exact storeGet_set_ne _ (by omega)
    have hdc : deflateChildren (fun c => deflateForStorage fuel sx c) res.2
        = some (cs.map (fun c => clearSelS fuel c)) := by
      apply deflateChildren_of_pointwise cs res.2 g3
      intro k c' hk
      obtain ⟨r, hr, hdef⟩ := g5 k c' hk
      exact ⟨r, hr, hdef sx hagree⟩
    have hstep : (match deflateChildren (fun c => deflateForStorage fuel sx c) res.2 with
        | some ds => some (SNode.mk i m (some ds) e (clearTruthy sel))
        | none => none) = some (clearSelS (fuel + 1) (SNode.mk i m (some cs) e sel)) := by
      rw [hdc]
      rfl
    rw [deflateForStorage_succ, hroot]
    exact hstep
  · intro j hlo hhi
    have hjlt : j < res.1.length := by
      have h2 : j < (res.1.set s0.length
          (⟨i, m, parent, some res.2, e, clearTruthy sel⟩ : RawNode)).length := hhi
      rw [hsetlen] at h2
      exact h2
    by_cases hj : j = s0.length
    · subst hj
      refine ⟨⟨i, m, parent, some res.2, e, clearTruthy sel⟩, ?_, clearTruthy_ne_true sel, ?_⟩
      · show storeGet (res.1.set s0.length ⟨i, m, parent, some res.2, e, clearTruthy sel⟩)
            s0.length = _
        exact storeGet_set_self _ hr0
      · intro cs2 c2 hcs hc2
        have hcs2 : some res.2 = some cs2 := hcs
        cases hcs2
        obtain ⟨k1, k2, cn, hcn, hpar⟩ := g4 c2 hc2
        refine ⟨by omega, ?_, cn, ?_, hpar⟩
        · show c2 < (res.1.set s0.length
              ⟨i, m, parent, some res.2, e, clearTruthy sel⟩).length
          rw [hsetlen]
          exact k2
        · show storeGet (res.1.set s0.length ⟨i, m, parent, some res.2, e, clearTruthy sel⟩)
              c2 = some cn
          rw [storeGet_set_ne _ (by omega)]
          exact hcn
    · have hj1 : (s0 ++ [(⟨i, m, parent, some [], e, clearTruthy sel⟩ : RawNode)]).length
          ≤ j := by omega
      obtain ⟨nd, hnd, hsel, hch⟩ := g6 j hj1 hjlt
      refine ⟨nd, ?_, hsel, ?_⟩
      · show storeGet (res.1.set s0.length ⟨i, m, parent, some res.2, e, clearTruthy sel⟩) j
            = some nd
        rw [storeGet_set_ne _ (by omega)]
        exact hnd
      · intro cs2 c2 hcs hc2
        obtain ⟨k1, k2, cn, hcn, hpar⟩ := hch cs2 c2 hcs hc2
        refine ⟨by omega, ?_, cn, ?_, hpar⟩
        · show c2 < (res.1.set s0.length
              ⟨i, m, parent, some res.2, e, clearTruthy sel⟩).length
          rw [hsetlen]
          exact k2
        · show storeGet (res.1.set s0.length ⟨i, m, parent, some res.2, e, clearTruthy sel⟩)
              c2 = some cn
          rw [storeGet_set_ne _ (by omega)]
          exact hcn

theorem infSpec_succ (fuel : Nat) (H : InfSpec fuel) : InfSpec (fuel + 1) := by
  intro d hdep parent s0
  obtain ⟨i, m, cso, e, sel⟩ := d
  cases cso with
  | none => exact inflOut_leaf fuel i m e sel parent s0
  | some cs =>
    have hdep' : cs.all (fun c => sDepthLe fuel c) = true := hdep
    have hall : ∀ c ∈ cs, sDepthLe fuel c = true :=
      fun c hc => List.all_eq_true.mp hdep' c hc
    exact inflOut_composite fuel i m cs e sel parent s0
      (inflList_spec fuel H cs hall s0.length
        (s0 ++ [⟨i, m, parent, some [], e, clearTruthy sel⟩]))

theorem infSpec_all : ∀ fuel, InfSpec fuel := by
  intro fuel
  induction fuel with
  | zero =>
    intro d hdep parent s0
    cases hdep
  | succ fuel ih => exact infSpec_succ fuel ih

/-- C6.  View-state round trip: whenever `deflateForStorage` succeeds on a node
reference (every finite tree within the fuel bound), inflating the storage
object into a fresh store and deflating the restored root again yields the
same storage object node for node in ids, names, expansion flags and child
order, with every truthy `selected` flag reset; moreover in the restored store
no node has a truthy `selected` flag and every element of a composite node's
children array has its parent pointer re-established to that composite.
`deflateForStorage` is read-only by construction: it returns only the storage
object and leaves the store unchanged. -/
theorem view_state_round_trip (fuel : Nat) (s : List RawNode) (r : Nat) (d : SNode)
    (hdef : deflateForStorage fuel s r = some d) :
    deflateForStorage fuel (inflateFromStorage fuel d none []).1
        (inflateFromStorage fuel d none []).2 = some (clearSelS fuel d) ∧
      ∀ i nd, storeGet (inflateFromStorage fuel d none []).1 i = some nd →
        nd.selected ≠ some true ∧
        ∀ cs c, nd.children = some cs → c ∈ cs →
          ∃ cn, storeGet (inflateFromStorage fuel d none []).1 c = some cn ∧
            cn.parent = some i := by
  have hdep := sDepthLe_of_deflate fuel s r d hdef
  obtain ⟨h1, h2, h3, h4, h5, h6⟩ := infSpec_all fuel d hdep none []
  constructor
  · rw [h1]
    exact h5 _ (fun j _ _ => rfl)
  · intro i nd hnd
    have hi : i < (inflateFromStorage fuel d none []).1.length := storeGet_lt hnd
    obtain ⟨nd', hnd', hsel, hch⟩ := h6 i (Nat.zero_le i) hi
    rw [hnd] at hnd'
    cases hnd'
    refine ⟨hsel, ?_⟩
    intro cs c hcs hc
    obtain ⟨_, _, cn, hcn, hpar⟩ := hch cs c hcs hc
    exact ⟨cn, hcn, hpar⟩

theorem view_state_round_trip_witness :
    deflateForStorage 3 rtStore 0 = some rtD ∧
      (deflateForStorage 3 (inflateFromStorage 3 rtD none []).1
          (inflateFromStorage 3 rtD none []).2 = some (clearSelS 3 rtD) ∧
        ∀ i nd, storeGet (inflateFromStorage 3 rtD none []).1 i = some nd →
          nd.selected ≠ some true ∧
          ∀ cs c, nd.children = some cs → c ∈ cs →
            ∃ cn, storeGet (inflateFromStorage 3 rtD none []).1 c = some cn ∧
              cn.parent = some i) :=
  ⟨rfl, view_state_round_trip 3 rtStore 0 rtD rfl⟩

/-- C4.  The parent-pointer half of the claim that concerns `Node.toTreeNode`
fails: on the input `{ id: '1', children: [{ id: '1.1' }] }` the mock model
returns the spread copy `{...node, selected, expanded, children}` — store
reference 2 with children `[1]` — while the child (reference 1) keeps the
parent pointer it was created with, the first allocation (reference 0), whose
own children array stayed empty.  So the child of the returned composite does
not point back at it.  (`inflateFromStorage` does re-establish the invariant;
that half is proved with claim C6's round trip.) -/
theorem parent_pointer_mock_violation :
    (toTreeNode 3 (.mk "1" [.mk "1.1" []]) none []).2 = 2 ∧
    (storeGet (toTreeNode 3 (.mk "1" [.mk "1.1" []]) none []).1 2).map RawNode.children
      = some (some [1]) ∧
    (storeGet (toTreeNode 3 (.mk "1" [.mk "1.1" []]) none []).1 1).map RawNode.parent
      = some (some 0) ∧
    (storeGet (toTreeNode 3 (.mk "1" [.mk "1.1" []]) none []).1 1).map RawNode.parent
      ≠ some (some ((toTreeNode 3 (.mk "1" [.mk "1.1" []]) none []).2)) := by
  refine ⟨rfl, rfl, rfl, by decide⟩
